import Mathlib

/-!
# Verification of the IPC throughput benchmark (`ipc_sender.c`, `ipc_receiver.c`)

Shallow embedding of the two transports:

* the socket transport: `send_all` / `recv_all`, the 12-byte header and the
  chunk loops of both `run_socket` functions;
* the shared-memory transport: the single-slot handoff between the sender's
  and the receiver's `run_shm`, as an interleaved step function.

Conventions.  `size_t` and `uint64_t` are 64-bit unsigned (LP64), `uint32_t`
is 32-bit, `uint8_t` is 8-bit; values are `Nat` and every operation that can
wrap carries its modulus explicitly.  A `char` buffer is a function from the
index to the raw byte stored there (`0 .. 255`).

Environment.  System calls are modelled by their outcomes: the results of the
successive `send` and `recv` calls are lists given to the model, the other
calls succeed or fail as an environment record says.  In the shared-memory
model `sem_wait` returns only once it has taken the semaphore and `sem_post`
always succeeds (the code does not look at their return values), and the
receiver enters its drain loop on the region the sender has initialised.
-/

namespace Ipc

/-! ## Constants and machine integers -/

/-- Capacity of the shared slot, `SHM_BUFFER_SIZE = (1U << 20)` (ipc_common.h:12). -/
def SHM_BUFFER_SIZE : Nat := 2 ^ 20

/-- Modulus of `uint64_t` and of `size_t`. -/
def U64 : Nat := 2 ^ 64

/-- Modulus of `uint32_t`. -/
def U32 : Nat := 2 ^ 32

/-- A `char *` buffer: index to raw byte. -/
abbrev Buffer := Nat → Nat

/-- The bytes `buffer[ptr .. ptr + n)` as a list. -/
def bytes_at (buffer : Buffer) (ptr n : Nat) : List Nat :=
  (List.range n).map (fun i => buffer (ptr + i))

/-- Copy of the list `d` into `buffer` starting at index `ptr`. -/
def write_at (buffer : Buffer) (ptr : Nat) (d : List Nat) : Buffer :=
  fun i => if ptr ≤ i ∧ i < ptr + d.length then d.getD (i - ptr) 0 else buffer i

/-! ## Payload pattern and checksum -/

/-- The byte `(char)(seed + (uint8_t)i)` written at index `i` (ipc_sender.c:39). -/
def pattern_byte (seed i : Nat) : Nat := (seed + i % 256) % 256

/-- The loop of `fill_pattern` (ipc_sender.c:38-40), statement by statement:
for `i = 0, 1, .., size - 1` the store `buffer[i] = (char)(seed + (uint8_t)i)`. -/
def fill_pattern_loop (buffer : Buffer) (size seed : Nat) : Buffer :=
  (List.range size).foldl (fun b i => Function.update b i (pattern_byte seed i)) buffer

/-- `fill_pattern` (ipc_sender.c:37-41) by its effect: every index `i < size`
holds `(char)(seed + (uint8_t)i)`, the other bytes are unchanged.  It is
equal to `fill_pattern_loop` (`fill_pattern_eq_loop`) and evaluates in one
step per index. -/
def fill_pattern (buffer : Buffer) (size seed : Nat) : Buffer :=
  fun i => if i < size then pattern_byte seed i else buffer i

/-- `consume_buffer` (ipc_receiver.c:30-36): the loop over `i < size` adding
`(unsigned char)buffer[i]` to a `uint64_t` sum. -/
def consume_buffer (buffer : Buffer) (size : Nat) : Nat :=
  (List.range size).foldl (fun sum i => (sum + buffer i % 256) % U64) 0

/-! ## Header encoding -/

/-- Byte order of the host; both processes run on the same host. -/
inductive ByteOrder
  | little
  | big
  deriving DecidableEq

/-- Little-endian bytes of the `width`-byte unsigned object holding `v`. -/
def le_bytes : Nat → Nat → List Nat
  | 0, _ => []
  | width + 1, v => v % 256 :: le_bytes width (v / 256)

/-- Value of a little-endian byte list. -/
def le_value : List Nat → Nat
  | [] => 0
  | b :: bs => b % 256 + 256 * le_value bs

/-- Object representation of an unsigned integer of `width` bytes whose value
is `v` modulo `256 ^ width`. -/
def encode (bo : ByteOrder) (width v : Nat) : List Nat :=
  match bo with
  | .little => le_bytes width v
  | .big => (le_bytes width v).reverse

/-- Value of an unsigned integer read from its object representation. -/
def decode (bo : ByteOrder) (bs : List Nat) : Nat :=
  match bo with
  | .little => le_value bs
  | .big => le_value bs.reverse

/-! ## Socket transport: sender -/

/-- Result of one `send` call: the kernel accepts up to `n` bytes, or the
call fails with `EINTR`, or with another error. -/
inductive SendOutcome
  | took (n : Nat)
  | eintr
  | err
  deriving DecidableEq

/-- `send_all` (ipc_sender.c:43-58).  `os` are the results of the successive
`send` calls, `wire` the bytes accepted so far; a `send` never accepts more
than the `remaining` bytes it is given.  `none`: the calls never return. -/
def send_all_loop : List SendOutcome → List Nat → Buffer → Nat → Nat →
    Option (Int × List Nat × List SendOutcome)
  | [], wire, _, _, remaining => if remaining = 0 then some (0, wire, []) else none
  | o :: os, wire, data, ptr, remaining =>
    if remaining = 0 then some (0, wire, o :: os)
    else match o with
      | .eintr => send_all_loop os wire data ptr remaining
      | .err => some (-1, wire, os)
      | .took n =>
        let sent := min n remaining
        send_all_loop os (wire ++ bytes_at data ptr sent) data (ptr + sent) (remaining - sent)

/-- The call `send_all(fd, data, size)`. -/
def send_all (os : List SendOutcome) (wire : List Nat) (data : Buffer) (size : Nat) :
    Option (Int × List Nat × List SendOutcome) :=
  send_all_loop os wire data 0 size

/-- Outcomes of the system calls of the sender that are not part of the
transfer itself. -/
structure SenderEnv where
  socket_ok : Bool
  host_ok : Bool
  connect_ok : Bool
  malloc_ok : Bool
  heap : Buffer

/-- What a run of the sender's `run_socket` did. -/
inductive SendStatus
  | returned (code : Nat)
  | blocked
  | out_of_fuel
  deriving DecidableEq

/-- Result of the sender's `run_socket`: how it ended, the bytes put on the
wire, and the `(send_size, seed)` of every chunk whose `send_all` was
called. -/
structure SendRun where
  status : SendStatus
  wire : List Nat
  chunks : List (Nat × Nat)

/-- The chunk loop of the sender's `run_socket` (ipc_sender.c:100-112). -/
def sender_socket_loop (chunk_size : Nat) : Nat → List SendOutcome → List Nat → Buffer →
    Nat → Nat → List (Nat × Nat) → SendRun
  | 0, _, wire, _, remaining, _, chunks =>
    if remaining = 0 then ⟨.returned 0, wire, chunks⟩ else ⟨.out_of_fuel, wire, chunks⟩
  | fuel + 1, os, wire, buffer, remaining, seed, chunks =>
    if remaining = 0 then ⟨.returned 0, wire, chunks⟩
    else
      let send_size := if remaining < chunk_size then remaining else chunk_size
      let buffer := fill_pattern buffer send_size seed
      let chunks := chunks ++ [(send_size, seed)]
      match send_all os wire buffer send_size with
      | none => ⟨.blocked, wire, chunks⟩
      | some (r, wire, os) =>
        if r ≠ 0 then ⟨.returned 1, wire, chunks⟩
        else sender_socket_loop chunk_size fuel os wire buffer (remaining - send_size)
          ((seed + 1) % 256) chunks

/-- The sender's `run_socket` (ipc_sender.c:60-117) from the `socket` call on:
`header_total = (uint64_t)total_bytes`, `header_chunk = (uint32_t)chunk_size`. -/
def sender_run_socket (env : SenderEnv) (bo : ByteOrder) (fuel : Nat) (os : List SendOutcome)
    (total_bytes chunk_size : Nat) : SendRun :=
  if !env.socket_ok then ⟨.returned 1, [], []⟩
  else if !env.host_ok then ⟨.returned 1, [], []⟩
  else if !env.connect_ok then ⟨.returned 1, [], []⟩
  else
    let header_total := total_bytes % U64
    let header_chunk := chunk_size % U32
    match send_all os [] (write_at (fun _ => 0) 0 (encode bo 8 header_total)) 8 with
    | none => ⟨.blocked, [], []⟩
    | some (r, wire, os) =>
      if r ≠ 0 then ⟨.returned 1, wire, []⟩
      else match send_all os wire (write_at (fun _ => 0) 0 (encode bo 4 header_chunk)) 4 with
        | none => ⟨.blocked, wire, []⟩
        | some (r, wire, os) =>
          if r ≠ 0 then ⟨.returned 1, wire, []⟩
          else if !env.malloc_ok then ⟨.returned 1, wire, []⟩
          else sender_socket_loop chunk_size fuel os wire env.heap total_bytes 0 []

/-! ## Socket transport: receiver -/

/-- Result of one `recv` call: up to `n` bytes are delivered (`0` bytes when
nothing is delivered or the peer has closed and the stream is exhausted), or
the call fails with `EINTR`, or with another error. -/
inductive RecvEvent
  | ready (n : Nat)
  | eintr
  | err
  deriving DecidableEq

/-- `recv_all` (ipc_receiver.c:38-56).  `es` are the results of the successive
`recv` calls and `stream` the bytes the peer sent that were not read yet; a
`recv` returns at most the `remaining` bytes asked for and at most what the
stream holds.  `none`: the calls never return. -/
def recv_all_loop : List RecvEvent → List Nat → Buffer → Nat → Nat →
    Option (Int × Buffer × List Nat × List RecvEvent)
  | [], stream, data, _, remaining =>
    if remaining = 0 then some (0, data, stream, []) else none
  | e :: es, stream, data, ptr, remaining =>
    if remaining = 0 then some (0, data, stream, e :: es)
    else match e with
      | .eintr => recv_all_loop es stream data ptr remaining
      | .err => some (-1, data, stream, es)
      | .ready n =>
        let received := min n (min remaining stream.length)
        if received = 0 then some (-1, data, stream, es)
        else recv_all_loop es (stream.drop received)
          (write_at data ptr (stream.take received)) (ptr + received) (remaining - received)

/-- The call `recv_all(fd, data, size)`. -/
def recv_all (es : List RecvEvent) (stream : List Nat) (data : Buffer) (size : Nat) :
    Option (Int × Buffer × List Nat × List RecvEvent) :=
  recv_all_loop es stream data 0 size

/-- Outcomes of the system calls of the receiver that are not part of the
transfer itself. -/
structure ReceiverEnv where
  socket_ok : Bool
  bind_ok : Bool
  listen_ok : Bool
  accept_ok : Bool
  malloc_ok : Bool
  heap : Buffer

/-- How a run of the receiver's `run_socket` ended. -/
inductive RecvStatus
  | returned (code : Nat)
  | blocked
  | out_of_fuel
  deriving DecidableEq

/-- Result of the receiver's `run_socket`: how it ended, the header it
decoded, every payload `recv_all` call (the `recv_size` requested and what
the call returned, `none` when it never returned), the checksum, and the
unread part of the stream. -/
structure RecvRun where
  status : RecvStatus
  total_bytes : Nat
  chunk_size : Nat
  calls : List (Nat × Option Int)
  checksum : Nat
  rest : List Nat

/-- The payload loop of the receiver's `run_socket` (ipc_receiver.c:116-129);
`total` and `chunk_size` are the header values, `chunk_size` a `uint32_t`. -/
def receiver_socket_loop (total chunk_size : Nat) : Nat → List RecvEvent → List Nat → Buffer →
    Nat → Nat → List (Nat × Option Int) → RecvRun
  | 0, _, stream, _, remaining, checksum, calls =>
    if remaining = 0 then ⟨.returned 0, total, chunk_size, calls, checksum, stream⟩
    else ⟨.out_of_fuel, total, chunk_size, calls, checksum, stream⟩
  | fuel + 1, es, stream, buffer, remaining, checksum, calls =>
    if remaining = 0 then ⟨.returned 0, total, chunk_size, calls, checksum, stream⟩
    else
      let recv_size := if remaining < chunk_size then remaining else chunk_size
      match recv_all es stream buffer recv_size with
      | none => ⟨.blocked, total, chunk_size, calls ++ [(recv_size, none)], checksum, stream⟩
      | some (r, buffer, stream, es) =>
        if r ≠ 0 then
          ⟨.returned 1, total, chunk_size, calls ++ [(recv_size, some r)], checksum, stream⟩
        else
          receiver_socket_loop total chunk_size fuel es stream buffer (remaining - recv_size)
            ((checksum + consume_buffer buffer recv_size) % U64)
            (calls ++ [(recv_size, some r)])

/-- What reading the header gave: the calls never return, a `recv_all` failed,
or the two fields together with the unread stream and the remaining events. -/
inductive HeaderResult
  | blocked
  | failed
  | header (total_bytes chunk_size : Nat) (stream : List Nat) (es : List RecvEvent)

/-- The header reads of the receiver's `run_socket` (ipc_receiver.c:94-102):
`recv_all` of the 8 bytes of `total_bytes`, then of the 4 bytes of
`chunk_size`, both variables zero-initialised. -/
def receiver_read_header (bo : ByteOrder) (es : List RecvEvent) (stream : List Nat) :
    HeaderResult :=
  match recv_all es stream (fun _ => 0) 8 with
  | none => .blocked
  | some (r, var_total, stream, es) =>
    if r ≠ 0 then .failed
    else
      match recv_all es stream (fun _ => 0) 4 with
      | none => .blocked
      | some (r, var_chunk, stream, es) =>
        if r ≠ 0 then .failed
        else .header (decode bo (bytes_at var_total 0 8)) (decode bo (bytes_at var_chunk 0 4))
          stream es

/-- The receiver's `run_socket` (ipc_receiver.c:58-142) from the `socket` call
on; `remaining = (size_t)total_bytes`. -/
def receiver_run_socket (env : ReceiverEnv) (bo : ByteOrder) (fuel : Nat) (es : List RecvEvent)
    (stream : List Nat) : RecvRun :=
  if !env.socket_ok then ⟨.returned 1, 0, 0, [], 0, stream⟩
  else if !env.bind_ok then ⟨.returned 1, 0, 0, [], 0, stream⟩
  else if !env.listen_ok then ⟨.returned 1, 0, 0, [], 0, stream⟩
  else if !env.accept_ok then ⟨.returned 1, 0, 0, [], 0, stream⟩
  else
    match receiver_read_header bo es stream with
    | .blocked => ⟨.blocked, 0, 0, [], 0, stream⟩
    | .failed => ⟨.returned 1, 0, 0, [], 0, stream⟩
    | .header total_bytes chunk_size stream es =>
      if !env.malloc_ok then ⟨.returned 1, total_bytes, chunk_size, [], 0, stream⟩
      else
        receiver_socket_loop total_bytes chunk_size fuel es stream env.heap
          (total_bytes % U64) 0 []

/-! ## Shared-memory transport -/

/-- The shared region `shm_region_t` (ipc_common.h:14-21); the two semaphores
are their counter values. -/
structure shm_region_t where
  can_write : Nat
  can_read : Nat
  chunk_size : Nat
  total_bytes : Nat
  done : Nat
  buffer : Buffer

/-- Outcomes of the system calls that create the region. -/
structure ShmEnv where
  shm_open_ok : Bool
  ftruncate_ok : Bool
  mmap_ok : Bool
  sem_init_ok : Bool

/-- The sender's `run_shm` up to the handoff loop (ipc_sender.c:119-154): the
capacity check, the creation of the zero-filled region, `sem_init` of
`can_write` to 1 and of `can_read` to 0, and the three field stores.  An
error is the return code. -/
def sender_shm_setup (env : ShmEnv) (total_bytes chunk_size : Nat) : Except Nat shm_region_t :=
  if chunk_size > SHM_BUFFER_SIZE then .error 1
  else if !env.shm_open_ok then .error 1
  else if !env.ftruncate_ok then .error 1
  else if !env.mmap_ok then .error 1
  else if !env.sem_init_ok then .error 1
  else .ok
    { can_write := 1, can_read := 0, chunk_size := chunk_size, total_bytes := total_bytes,
      done := 0, buffer := fun _ => 0 }

/-- Program points of the sender's handoff loop and termination
(ipc_sender.c:156-173); each names the statement executed next. -/
inductive SenderPc
  | loop_test
  | wait_write
  | fill
  | set_chunk
  | clear_done
  | post_read
  | dec_remaining
  | final_wait
  | set_done
  | final_post
  | exited
  deriving DecidableEq

/-- Local variables of the sender's `run_shm`.  `produced` is a history
variable the code does not have: the `(send_size, seed)` of every
`fill_pattern` call made so far. -/
structure SenderState where
  pc : SenderPc
  chunk_size : Nat
  remaining : Nat
  seed : Nat
  send_size : Nat
  produced : List (Nat × Nat)

/-- Program points of the receiver's drain loop (ipc_receiver.c:170-180). -/
inductive ReceiverPc
  | wait_read
  | check_done
  | post_done
  | read_size
  | consume
  | post_write
  | exited
  deriving DecidableEq

/-- Local variables of the receiver's `run_shm`.  `drained` and `done_seen`
are history variables the code does not have: the `size` of every
`consume_buffer` call made so far, and how often `region->done` was read as
true. -/
structure ReceiverState where
  pc : ReceiverPc
  checksum : Nat
  size : Nat
  drained : List Nat
  done_seen : Nat

/-- The two processes and the region they share. -/
structure System where
  region : shm_region_t
  sender : SenderState
  receiver : ReceiverState

/-- The two processes. -/
inductive Proc
  | sender
  | receiver
  deriving DecidableEq

/-- State in which the sender enters its handoff loop (ipc_sender.c:156-157)
and the receiver, attached to the initialised region, enters its drain loop
(ipc_receiver.c:170). -/
def shm_start (region : shm_region_t) (total_bytes chunk_size : Nat) : System :=
  { region := region
    sender :=
      { pc := .loop_test, chunk_size := chunk_size, remaining := total_bytes, seed := 0,
        send_size := 0, produced := [] }
    receiver := { pc := .wait_read, checksum := 0, size := 0, drained := [], done_seen := 0 } }

/-- One statement of the sender (ipc_sender.c:158-170); `none` when the
sender is blocked in `sem_wait` or has returned. -/
def sender_step (s : System) : Option System :=
  let r := s.region
  let x := s.sender
  match x.pc with
  | .loop_test =>
    if x.remaining > 0 then
      some { s with sender := { x with
        pc := .wait_write
        send_size := if x.remaining < x.chunk_size then x.remaining else x.chunk_size } }
    else some { s with sender := { x with pc := .final_wait } }
  | .wait_write =>
    if r.can_write > 0 then
      some { s with region := { r with can_write := r.can_write - 1 }, sender := { x with pc := .fill } }
    else none
  | .fill =>
    some { s with
      region := { r with buffer := fill_pattern r.buffer x.send_size x.seed }
      sender := { x with
        pc := .set_chunk
        seed := (x.seed + 1) % 256
        produced := x.produced ++ [(x.send_size, x.seed)] } }
  | .set_chunk =>
    some { s with region := { r with chunk_size := x.send_size }, sender := { x with pc := .clear_done } }
  | .clear_done =>
    some { s with region := { r with done := 0 }, sender := { x with pc := .post_read } }
  | .post_read =>
    some { s with
      region := { r with can_read := r.can_read + 1 }
      sender := { x with pc := .dec_remaining } }
  | .dec_remaining =>
    some { s with sender := { x with pc := .loop_test, remaining := x.remaining - x.send_size } }
  | .final_wait =>
    if r.can_write > 0 then
      some { s with
        region := { r with can_write := r.can_write - 1 }
        sender := { x with pc := .set_done } }
    else none
  | .set_done =>
    some { s with region := { r with done := 1 }, sender := { x with pc := .final_post } }
  | .final_post =>
    some { s with region := { r with can_read := r.can_read + 1 }, sender := { x with pc := .exited } }
  | .exited => none

/-- One statement of the receiver (ipc_receiver.c:171-180); `none` when the
receiver is blocked in `sem_wait` or has left the loop. -/
def receiver_step (s : System) : Option System :=
  let r := s.region
  let y := s.receiver
  match y.pc with
  | .wait_read =>
    if r.can_read > 0 then
      some { s with
        region := { r with can_read := r.can_read - 1 }
        receiver := { y with pc := .check_done } }
    else none
  | .check_done =>
    if r.done ≠ 0 then
      some { s with receiver := { y with pc := .post_done, done_seen := y.done_seen + 1 } }
    else some { s with receiver := { y with pc := .read_size } }
  | .post_done =>
    some { s with
      region := { r with can_write := r.can_write + 1 }
      receiver := { y with pc := .exited } }
  | .read_size =>
    some { s with receiver := { y with pc := .consume, size := r.chunk_size } }
  | .consume =>
    some { s with receiver := { y with
      pc := .post_write
      checksum := (y.checksum + consume_buffer r.buffer y.size) % U64
      drained := y.drained ++ [y.size] } }
  | .post_write =>
    some { s with
      region := { r with can_write := r.can_write + 1 }
      receiver := { y with pc := .wait_read } }
  | .exited => none

/-- One step of the interleaving: the chosen process executes its next
statement. -/
def step (p : Proc) (s : System) : Option System :=
  match p with
  | .sender => sender_step s
  | .receiver => receiver_step s

/-- The states the two processes can be in after the sender's `run_shm` was
called with `total_bytes` and `chunk_size` and created the region. -/
inductive Reachable (total_bytes chunk_size : Nat) : System → Prop
  | start (env : ShmEnv) (region : shm_region_t) :
      sender_shm_setup env total_bytes chunk_size = .ok region →
      Reachable total_bytes chunk_size (shm_start region total_bytes chunk_size)
  | step (p : Proc) (s t : System) :
      Reachable total_bytes chunk_size s → step p s = some t →
      Reachable total_bytes chunk_size t

/-- Execution of a schedule: the listed processes take one step each, in
order; a step of a blocked or finished process leaves the state as it is. -/
def run_schedule : List Proc → System → System
  | [], s => s
  | p :: ps, s =>
    match step p s with
    | some t => run_schedule ps t
    | none => run_schedule ps s

/-- The sender is between a `sem_wait` and the `sem_post` that follows it. -/
def sender_holds (x : SenderState) : Nat :=
  match x.pc with
  | .fill | .set_chunk | .clear_done | .post_read | .set_done | .final_post => 1
  | _ => 0

/-- The receiver is between its `sem_wait` and the `sem_post` that follows it. -/
def receiver_holds (y : ReceiverState) : Nat :=
  match y.pc with
  | .check_done | .post_done | .read_size | .consume | .post_write => 1
  | _ => 0

/-! ## Reference descriptions used in the statements -/

/-- Chunk sizes as the specification words them: chunks of `chunk_size`,
followed by one chunk of `total_bytes mod chunk_size` when that is not zero. -/
def chunk_sizes (chunk_size total_bytes : Nat) : List Nat :=
  List.replicate (total_bytes / chunk_size) chunk_size ++
    (if total_bytes % chunk_size = 0 then [] else [total_bytes % chunk_size])

/-- Sizes paired with the per-chunk seed, a counter from `k` that wraps
modulo 256. -/
def with_seeds : List Nat → Nat → List (Nat × Nat)
  | [], _ => []
  | size :: rest, k => (size, k % 256) :: with_seeds rest (k + 1)

/-- The bytes of one chunk: what `fill_pattern` stores for `(size, seed)`. -/
def pattern_bytes (c : Nat × Nat) : List Nat :=
  (List.range c.1).map (pattern_byte c.2)

/-- Sum of the unsigned values of the bytes of a list. -/
def byte_sum (l : List Nat) : Nat := (l.map (fun b => b % 256)).sum

/-- A buffer holding the list `l` from index 0. -/
def buffer_of (l : List Nat) : Buffer := fun i => l.getD i 0

/-- The receiver's accumulation `checksum += consume_buffer(chunk, size)` over
a list of chunks, each in a buffer of its own. -/
def checksum_of_chunks (chunks : List (List Nat)) : Nat :=
  chunks.foldl (fun checksum c => (checksum + consume_buffer (buffer_of c) c.length) % U64) 0

/-! ## Invariants of the shared-memory handoff -/

/-- Control invariant of the handoff for a transfer in chunks of `chunk_size`:
the single token, the capacity bounds, the meaning of the `done` flag and the
order in which the two processes finish. -/
structure Inv (chunk_size : Nat) (s : System) : Prop where
  token : s.region.can_write + s.region.can_read + sender_holds s.sender
    + receiver_holds s.receiver = 1
  chunk : s.sender.chunk_size = chunk_size
  cap : chunk_size ≤ SHM_BUFFER_SIZE
  done_flag : s.region.done
    = if s.sender.pc = .final_post ∨ s.sender.pc = .exited then 1 else 0
  send_le : s.sender.send_size ≤ chunk_size
  slot_le : s.region.chunk_size ≤ chunk_size
  size_le : s.receiver.size ≤ chunk_size
  recv_exit : s.receiver.pc = .post_done ∨ s.receiver.pc = .exited → s.sender.pc = .exited
  send_exit : s.sender.pc = .exited →
    s.receiver.pc ≠ .read_size ∧ s.receiver.pc ≠ .consume ∧ s.receiver.pc ≠ .post_write ∧
      (s.receiver.pc = .wait_read → s.region.can_read = 1)
  seen : s.receiver.done_seen
    = if s.receiver.pc = .post_done ∨ s.receiver.pc = .exited then 1 else 0

/-- Every size the sender ever passed to `fill_pattern` and every size the
receiver ever passed to `consume_buffer` is at most `chunk_size`. -/
def history_bounded (chunk_size : Nat) (s : System) : Prop :=
  (∀ x ∈ s.sender.produced, x.1 ≤ chunk_size) ∧ (∀ x ∈ s.receiver.drained, x ≤ chunk_size)

/-- Bytes the sender still has to hand over once the chunk in progress is
counted as handed over. -/
def pending (x : SenderState) : Nat :=
  match x.pc with
  | .set_chunk | .clear_done | .post_read | .dec_remaining => x.remaining - x.send_size
  | _ => x.remaining

/-- The slot holds a chunk the sender has written and the receiver has not
yet folded into its checksum. -/
def ahead (s : System) : Prop :=
  s.sender.pc = .set_chunk ∨ s.sender.pc = .clear_done ∨ s.sender.pc = .post_read ∨
    (0 < s.region.can_read ∧ s.sender.pc ≠ .exited) ∨
    (s.receiver.pc = .check_done ∧ s.sender.pc ≠ .exited) ∨
    s.receiver.pc = .read_size ∨ s.receiver.pc = .consume

/-- Checksum of a list of chunks given by `(size, seed)`: the sum of all their
pattern bytes in `uint64_t` arithmetic. -/
def chunks_checksum (p : List (Nat × Nat)) : Nat :=
  byte_sum (p.map pattern_bytes).flatten % U64

/-- Data invariant of the handoff: what the sender has produced so far is a
prefix of the chunking of `total_bytes`, and what the receiver has drained is
what the sender produced, less the chunk in the slot. -/
structure DataInv (total_bytes chunk_size : Nat) (s : System) : Prop where
  seeds : with_seeds (s.sender.produced.map Prod.fst) 0 = s.sender.produced
  seed : s.sender.seed = s.sender.produced.length % 256
  sizes : 0 < chunk_size →
    s.sender.produced.map Prod.fst ++ chunk_sizes chunk_size (pending s.sender)
      = chunk_sizes chunk_size total_bytes
  busy : s.sender.pc = .wait_write ∨ s.sender.pc = .fill ∨ s.sender.pc = .set_chunk ∨
      s.sender.pc = .clear_done ∨ s.sender.pc = .post_read ∨ s.sender.pc = .dec_remaining →
    0 < s.sender.remaining ∧ s.sender.send_size
      = if s.sender.remaining < chunk_size then s.sender.remaining else chunk_size
  last : s.sender.pc = .set_chunk ∨ s.sender.pc = .clear_done ∨ s.sender.pc = .post_read ∨
      s.sender.pc = .dec_remaining →
    ∃ q seed, s.sender.produced = q ++ [(s.sender.send_size, seed)]
  fin : s.sender.pc = .final_wait ∨ s.sender.pc = .set_done ∨ s.sender.pc = .final_post ∨
      s.sender.pc = .exited → s.sender.remaining = 0
  full : ahead s → ∃ q size seed, s.sender.produced = q ++ [(size, seed)] ∧
    s.receiver.drained = q.map Prod.fst ∧ s.receiver.checksum = chunks_checksum q ∧
    (∀ i, i < size → s.region.buffer i = pattern_byte seed i) ∧
    (s.sender.pc ≠ .set_chunk → s.region.chunk_size = size) ∧
    (s.receiver.pc = .consume → s.receiver.size = size)
  synced : ¬ ahead s → s.receiver.drained = s.sender.produced.map Prod.fst ∧
    s.receiver.checksum = chunks_checksum s.sender.produced

/-- Both processes are between two chunks: the sender is at its loop test
with `r` bytes left, the receiver is about to wait, and the slot is free. -/
def idle (c r : Nat) (s : System) : Prop :=
  s.sender.pc = .loop_test ∧ s.sender.remaining = r ∧ s.sender.chunk_size = c ∧
    s.receiver.pc = .wait_read ∧ s.region.can_write = 1 ∧ s.region.can_read = 0

/-- Schedule of one handoff: the sender runs one loop iteration, then the
receiver drains the slot. -/
def handoff_round : List Proc :=
  List.replicate 7 Proc.sender ++ List.replicate 5 Proc.receiver

/-- Schedule of the termination: the sender leaves its loop and signals
`done`, then the receiver observes it. -/
def handoff_final : List Proc :=
  List.replicate 4 Proc.sender ++ List.replicate 3 Proc.receiver

/-! ## Vocabulary for the statement about `recv_all` -/

/-- A `recv` result that lets `recv_all` go on: a read of at least one byte,
or `EINTR`. -/
def clean (e : RecvEvent) : Prop :=
  match e with
  | .ready n => 0 < n
  | .eintr => True
  | .err => False

/-- Number of bytes a list of `recv` results delivers. -/
def event_bytes : List RecvEvent → Nat
  | [] => 0
  | .ready n :: es => n + event_bytes es
  | _ :: es => event_bytes es

/-- Every `recv` call that `recv_all` makes for `remaining` bytes returns at
most the bytes asked for and at most the `avail` bytes the peer has sent;
nothing is required of the calls after the one that ends the loop. -/
def Fits : List RecvEvent → Nat → Nat → Prop
  | [], _, _ => True
  | .ready n :: es, remaining, avail =>
    remaining = 0 ∨ (n ≤ remaining ∧ n ≤ avail ∧ (n = 0 ∨ Fits es (remaining - n) (avail - n)))
  | .eintr :: es, remaining, avail => remaining = 0 ∨ Fits es remaining avail
  | .err :: _, _, _ => True

/-- Return value of `recv_all`, `none` when it never returns. -/
def recv_all_ret (es : List RecvEvent) (stream : List Nat) (data : Buffer) (size : Nat) :
    Option Int :=
  (recv_all es stream data size).map (fun r => r.1)

/-! ## Environments in which every system call succeeds -/

/-- Sender environment: every call succeeds, the heap is zero-filled. -/
def sender_env_ok : SenderEnv :=
  { socket_ok := true, host_ok := true, connect_ok := true, malloc_ok := true, heap := fun _ => 0 }

/-- Receiver environment: every call succeeds, the heap is zero-filled. -/
def receiver_env_ok : ReceiverEnv :=
  { socket_ok := true, bind_ok := true, listen_ok := true, accept_ok := true, malloc_ok := true,
    heap := fun _ => 0 }

/-- Shared-memory environment: every call succeeds. -/
def shm_env_ok : ShmEnv :=
  { shm_open_ok := true, ftruncate_ok := true, mmap_ok := true, sem_init_ok := true }

/-- The region as `sender_shm_setup` leaves it. -/
def fresh_region (total_bytes chunk_size : Nat) : shm_region_t :=
  { can_write := 1, can_read := 0, chunk_size := chunk_size, total_bytes := total_bytes,
    done := 0, buffer := fun _ => 0 }

/-- Round-robin schedule of `n` turns: sender, receiver, sender, ... -/
def round_robin (n : Nat) : List Proc :=
  (List.replicate n [Proc.sender, Proc.receiver]).flatten

/-! ## Basic facts about buffers, the pattern and the checksum -/

theorem fill_pattern_loop_apply (buffer : Buffer) (size seed i : Nat) :
    fill_pattern_loop buffer size seed i
      = if i < size then pattern_byte seed i else buffer i := by
  unfold fill_pattern_loop
  induction size with
  | zero => simp
  | succ n ih =>
    rw [List.range_succ, List.foldl_append]
    simp only [List.foldl_cons, List.foldl_nil]
    by_cases h : i = n
    · subst h; simp
    · rw [Function.update_noteq h, ih]
      by_cases h2 : i < n
      · simp [h2, Nat.lt_succ_of_lt h2]
      · have : ¬ i < n + 1 := by omega
        simp [h2, this]

theorem fill_pattern_eq_loop (buffer : Buffer) (size seed : Nat) :
    fill_pattern buffer size seed = fill_pattern_loop buffer size seed := by
  funext i
  rw [fill_pattern_loop_apply]
  rfl

theorem fill_pattern_apply (buffer : Buffer) (size seed i : Nat) :
    fill_pattern buffer size seed i = if i < size then pattern_byte seed i else buffer i :=
  rfl

theorem consume_loop_eq (buffer : Buffer) (size : Nat) :
    (List.range size).foldl (fun sum i => (sum + buffer i % 256) % U64) 0 =
      ((List.range size).map (fun i => buffer i % 256)).sum % U64 := by
  induction size with
  | zero => simp
  | succ n ih =>
    rw [List.range_succ, List.foldl_append, List.map_append, List.sum_append, ih]
    simp [Nat.add_mod]

theorem consume_buffer_eq (buffer : Buffer) (size : Nat) :
    consume_buffer buffer size = byte_sum (bytes_at buffer 0 size) % U64 := by
  unfold consume_buffer byte_sum bytes_at
  rw [consume_loop_eq]
  simp [List.map_map, Function.comp_def]

theorem bytes_at_congr (b c : Buffer) (ptr n : Nat) (h : ∀ i, i < n → b (ptr + i) = c (ptr + i)) :
    bytes_at b ptr n = bytes_at c ptr n := by
  unfold bytes_at
  apply List.map_congr_left
  intro i hi
  exact h i (List.mem_range.mp hi)

theorem consume_buffer_congr (b c : Buffer) (n : Nat) (h : ∀ i, i < n → b i = c i) :
    consume_buffer b n = consume_buffer c n := by
  rw [consume_buffer_eq, consume_buffer_eq, bytes_at_congr b c 0 n (by simpa using h)]

theorem bytes_at_fill_pattern (buffer : Buffer) (size seed : Nat) :
    bytes_at (fill_pattern buffer size seed) 0 size = pattern_bytes (size, seed) := by
  unfold bytes_at pattern_bytes
  apply List.map_congr_left
  intro i hi
  have := List.mem_range.mp hi
  simp [fill_pattern_apply, this]

theorem bytes_at_length (b : Buffer) (ptr n : Nat) : (bytes_at b ptr n).length = n := by
  simp [bytes_at]

theorem bytes_at_add (b : Buffer) (ptr m n : Nat) :
    bytes_at b ptr (m + n) = bytes_at b ptr m ++ bytes_at b (ptr + m) n := by
  unfold bytes_at
  rw [List.range_add, List.map_append, List.map_map]
  simp [Function.comp_def, Nat.add_assoc]

theorem bytes_at_buffer_of (l : List Nat) : bytes_at (buffer_of l) 0 l.length = l := by
  apply List.ext_getElem
  · simp [bytes_at]
  · intro i h1 h2
    simp [bytes_at, buffer_of, List.getD_eq_getElem?_getD, List.getElem?_eq_getElem h2]

theorem byte_sum_append (a b : List Nat) : byte_sum (a ++ b) = byte_sum a + byte_sum b := by
  simp [byte_sum]

theorem byte_sum_le (l : List Nat) : byte_sum l ≤ 255 * l.length := by
  induction l with
  | nil => simp [byte_sum]
  | cons a l ih =>
    have h : byte_sum (a :: l) = a % 256 + byte_sum l := by simp [byte_sum]
    rw [h, List.length_cons]
    omega

/-! ## The checksum does not depend on the chunking -/

theorem checksum_fold_eq (chunks : List (List Nat)) (acc : Nat) (hacc : acc < U64) :
    chunks.foldl (fun checksum c => (checksum + consume_buffer (buffer_of c) c.length) % U64) acc
      = (acc + byte_sum chunks.flatten) % U64 := by
  induction chunks generalizing acc with
  | nil => simp [byte_sum, Nat.mod_eq_of_lt hacc]
  | cons c cs ih =>
    rw [List.foldl_cons, ih _ (Nat.mod_lt _ (by unfold U64; positivity))]
    rw [consume_buffer_eq, bytes_at_buffer_of, List.flatten_cons, byte_sum_append]
    rw [Nat.add_mod, Nat.mod_mod, Nat.add_mod acc, Nat.mod_mod, ← Nat.add_mod acc, ← Nat.add_mod,
      Nat.add_assoc]

/-! ## Chunk sizes -/

theorem chunk_sizes_zero (c : Nat) : chunk_sizes c 0 = [] := by
  simp [chunk_sizes]

theorem chunk_sizes_step (c r : Nat) (hc : 0 < c) (hr : 0 < r) :
    chunk_sizes c r =
      (if r < c then r else c) :: chunk_sizes c (r - (if r < c then r else c)) := by
  by_cases h : r < c
  · have h1 : r / c = 0 := Nat.div_eq_of_lt h
    have h2 : r % c = r := Nat.mod_eq_of_lt h
    have h3 : r ≠ 0 := by omega
    simp [chunk_sizes, h, h1, h2, h3]
  · have hge : c ≤ r := by omega
    have h1 : r / c = (r - c) / c + 1 := by
      rw [Nat.div_eq_sub_div hc hge]
    have h2 : r % c = (r - c) % c := by
      rw [Nat.mod_eq_sub_mod hge]
    simp only [chunk_sizes, h, if_false, h1, h2, List.replicate_succ, List.cons_append]

theorem chunk_sizes_sum (c t : Nat) : (chunk_sizes c t).sum = t := by
  unfold chunk_sizes
  have h := Nat.div_add_mod t c
  by_cases h0 : t % c = 0
  · simp [h0, List.sum_replicate]
    rw [h0] at h
    rw [Nat.mul_comm]; omega
  · simp [h0, List.sum_replicate]
    rw [Nat.mul_comm]; omega

theorem ceil_div_eq (c q r : Nat) (hr : r < c) :
    (c * q + r + c - 1) / c = q + (if r = 0 then 0 else 1) := by
  have hc : 0 < c := by omega
  by_cases h0 : r = 0
  · subst h0
    have e : c * q + 0 + c - 1 = (c - 1) + c * q := by omega
    rw [e, Nat.add_mul_div_left _ _ hc, Nat.div_eq_of_lt (by omega)]
    simp
  · have e : c * q + r + c - 1 = (r - 1) + c * (q + 1) := by
      rw [Nat.mul_add]; omega
    rw [e, Nat.add_mul_div_left _ _ hc, Nat.div_eq_of_lt (by omega)]
    simp [h0]

theorem chunk_sizes_length (c t : Nat) (hc : 0 < c) :
    (chunk_sizes c t).length = (t + c - 1) / c := by
  have h := Nat.div_add_mod t c
  have hlt := Nat.mod_lt t hc
  have e := ceil_div_eq c (t / c) (t % c) hlt
  rw [h] at e
  rw [e]
  unfold chunk_sizes
  by_cases h0 : t % c = 0 <;> simp [h0]

theorem with_seeds_append (l : List Nat) (x k : Nat) :
    with_seeds (l ++ [x]) k = with_seeds l k ++ [(x, (k + l.length) % 256)] := by
  induction l generalizing k with
  | nil => simp [with_seeds]
  | cons a l ih =>
    simp [with_seeds, ih, Nat.add_assoc, Nat.add_comm 1]

theorem with_seeds_map_fst (l : List Nat) (k : Nat) : (with_seeds l k).map Prod.fst = l := by
  induction l generalizing k with
  | nil => simp [with_seeds]
  | cons a l ih => simp [with_seeds, ih]

/-! ## Socket transport: what the sender puts on the wire -/

theorem send_all_loop_spec (os : List SendOutcome) (wire : List Nat) (data : Buffer)
    (ptr remaining : Nat) (r : Int) (wire1 : List Nat) (os1 : List SendOutcome)
    (h : send_all_loop os wire data ptr remaining = some (r, wire1, os1)) :
    (r = 0 ∨ r = -1) ∧ (r = 0 → wire1 = wire ++ bytes_at data ptr remaining) ∧
      (r ≠ 0 → ∃ n, n ≤ remaining ∧ wire1 = wire ++ bytes_at data ptr n) := by
  induction os generalizing wire ptr remaining with
  | nil =>
    unfold send_all_loop at h
    by_cases h0 : remaining = 0
    · simp [h0] at h
      obtain ⟨rfl, rfl, rfl⟩ := h
      simp [h0, bytes_at]
    · simp [h0] at h
  | cons o os ih =>
    unfold send_all_loop at h
    by_cases h0 : remaining = 0
    · simp [h0] at h
      obtain ⟨rfl, rfl, rfl⟩ := h
      simp [h0, bytes_at]
    · simp only [h0, if_false] at h
      cases o with
      | eintr => exact ih _ _ _ h
      | err =>
        simp at h
        obtain ⟨rfl, rfl, rfl⟩ := h
        refine ⟨Or.inr rfl, by simp, fun _ => ⟨0, Nat.zero_le _, by simp [bytes_at]⟩⟩
      | took n =>
        simp only at h
        have hm : min n remaining ≤ remaining := Nat.min_le_right _ _
        obtain ⟨h1, h2, h3⟩ := ih _ _ _ h
        refine ⟨h1, ?_, ?_⟩
        · intro hr
          rw [h2 hr, List.append_assoc, ← bytes_at_add]
          congr 2
          omega
        · intro hr
          obtain ⟨m, hm1, hm2⟩ := h3 hr
          refine ⟨min n remaining + m, by omega, ?_⟩
          rw [hm2, List.append_assoc, ← bytes_at_add]

theorem sender_socket_loop_spec (c : Nat) (hc : 0 < c) (fuel : Nat) (os : List SendOutcome)
    (wire : List Nat) (buffer : Buffer) (remaining seed k : Nat) (chunks : List (Nat × Nat))
    (hseed : seed = k % 256) :
    let r := sender_socket_loop c fuel os wire buffer remaining seed chunks
    (∃ p rest, r.chunks = chunks ++ p ∧ p ++ rest = with_seeds (chunk_sizes c remaining) k ∧
        (r.status = .returned 0 → rest = [] ∧
          r.wire = wire ++ (p.map pattern_bytes).flatten)) ∧
      (remaining ≤ fuel → r.status ≠ .out_of_fuel) := by
  induction fuel generalizing os wire buffer remaining seed k chunks with
  | zero =>
    unfold sender_socket_loop
    by_cases h0 : remaining = 0
    · subst h0
      simp [chunk_sizes_zero, with_seeds]
    · simp only [h0, if_false]
      refine ⟨⟨[], _, by simp, by simp; rfl, by simp⟩, by omega⟩
  | succ fuel ih =>
    unfold sender_socket_loop
    by_cases h0 : remaining = 0
    · subst h0
      simp [chunk_sizes_zero, with_seeds]
    · simp only [h0, if_false]
      have hr : 0 < remaining := by omega
      have hstep := chunk_sizes_step c remaining hc hr
      generalize hss : (if remaining < c then remaining else c) = send_size at hstep ⊢
      have hle : send_size ≤ remaining := by rw [← hss]; split <;> omega
      have hpos : 0 < send_size := by rw [← hss]; split <;> omega
      rw [hstep]
      simp only [with_seeds]
      cases hsa : send_all os wire (fill_pattern buffer send_size seed) send_size with
      | none =>
        simp only
        refine ⟨⟨[(send_size, seed)], _, rfl, by simp [hseed]; rfl, by simp⟩, by simp⟩
      | some res =>
        obtain ⟨r, wire1, os1⟩ := res
        simp only
        obtain ⟨-, hw, -⟩ := send_all_loop_spec _ _ _ _ _ _ _ _ hsa
        by_cases hr0 : r = 0
        · subst hr0
          simp only [ne_eq, not_true_eq_false, if_false]
          have hseed1 : (seed + 1) % 256 = (k + 1) % 256 := by rw [hseed]; omega
          obtain ⟨⟨p, rest, hp1, hp2, hp3⟩, hf⟩ :=
            ih os1 wire1 (fill_pattern buffer send_size seed) (remaining - send_size)
              ((seed + 1) % 256) (k + 1) (chunks ++ [(send_size, seed)]) hseed1
          refine ⟨⟨(send_size, seed) :: p, rest, ?_, ?_, ?_⟩, ?_⟩
          · rw [hp1]; simp
          · rw [List.cons_append, hp2, hseed]
          · intro hst
            obtain ⟨h1, h2⟩ := hp3 hst
            refine ⟨h1, ?_⟩
            rw [h2, hw rfl, bytes_at_fill_pattern]
            simp
          · intro hfu
            exact hf (by omega)
        · simp only [ne_eq, hr0, not_false_eq_true, if_true]
          refine ⟨⟨[(send_size, seed)], _, rfl, by simp [hseed]; rfl, by simp⟩, by simp⟩

/-! ## Socket transport: what `recv_all` delivers -/

theorem write_at_nil (b : Buffer) (ptr : Nat) : write_at b ptr [] = b := by
  funext i
  simp [write_at]

theorem write_at_append (b : Buffer) (ptr : Nat) (d e : List Nat) :
    write_at (write_at b ptr d) (ptr + d.length) e = write_at b ptr (d ++ e) := by
  funext i
  simp only [write_at, List.length_append]
  by_cases h1 : ptr + d.length ≤ i ∧ i < ptr + d.length + e.length
  · have h2 : ptr ≤ i ∧ i < ptr + (d.length + e.length) := by omega
    rw [if_pos h1, if_pos h2]
    have h3 : d.length ≤ i - ptr := by omega
    rw [List.getD_eq_getElem?_getD, List.getD_eq_getElem?_getD, List.getElem?_append_right h3]
    congr 2
    omega
  · rw [if_neg h1]
    by_cases h2 : ptr ≤ i ∧ i < ptr + d.length
    · have h3 : ptr ≤ i ∧ i < ptr + (d.length + e.length) := by omega
      rw [if_pos h2, if_pos h3]
      have h4 : i - ptr < d.length := by omega
      rw [List.getD_eq_getElem?_getD, List.getD_eq_getElem?_getD, List.getElem?_append_left h4]
    · have h3 : ¬ (ptr ≤ i ∧ i < ptr + (d.length + e.length)) := by omega
      rw [if_neg h2, if_neg h3]

theorem bytes_at_write_at (b : Buffer) (ptr : Nat) (d : List Nat) :
    bytes_at (write_at b ptr d) ptr d.length = d := by
  apply List.ext_getElem
  · simp [bytes_at]
  · intro i h1 h2
    simp [bytes_at, write_at, h2, List.getD_eq_getElem?_getD, List.getElem?_eq_getElem h2]

theorem recv_all_loop_spec (es : List RecvEvent) (stream : List Nat) (data : Buffer)
    (ptr remaining : Nat) (r : Int) (data1 : Buffer) (stream1 : List Nat) (es1 : List RecvEvent)
    (h : recv_all_loop es stream data ptr remaining = some (r, data1, stream1, es1)) :
    (r = 0 ∨ r = -1) ∧
      (r = 0 → remaining ≤ stream.length ∧ stream1 = stream.drop remaining ∧
        data1 = write_at data ptr (stream.take remaining)) := by
  induction es generalizing stream data ptr remaining with
  | nil =>
    unfold recv_all_loop at h
    by_cases h0 : remaining = 0
    · simp [h0] at h
      obtain ⟨rfl, rfl, rfl, rfl⟩ := h
      simp [h0, write_at_nil]
    · simp [h0] at h
  | cons e es ih =>
    unfold recv_all_loop at h
    by_cases h0 : remaining = 0
    · simp [h0] at h
      obtain ⟨rfl, rfl, rfl, rfl⟩ := h
      simp [h0, write_at_nil]
    · simp only [h0, if_false] at h
      cases e with
      | eintr => exact ih _ _ _ _ h
      | err =>
        simp at h
        obtain ⟨rfl, rfl, rfl, rfl⟩ := h
        exact ⟨Or.inr rfl, by simp⟩
      | ready n =>
        simp only at h
        generalize hrec : min n (min remaining stream.length) = received at h
        have hr1 : received ≤ remaining := by omega
        have hr2 : received ≤ stream.length := by omega
        by_cases hz : received = 0
        · simp [hz] at h
          obtain ⟨rfl, rfl, rfl, rfl⟩ := h
          exact ⟨Or.inr rfl, by simp⟩
        · simp only [hz, if_false] at h
          obtain ⟨h1, h2⟩ := ih _ _ _ _ h
          refine ⟨h1, fun hr => ?_⟩
          obtain ⟨h3, h4, h5⟩ := h2 hr
          simp only [List.length_drop] at h3
          refine ⟨by omega, ?_, ?_⟩
          · rw [h4, List.drop_drop]
            congr 1
            omega
          · rw [h5]
            have hl : (stream.take received).length = received := by
              simp [List.length_take, hr2]
            have := write_at_append data ptr (stream.take received)
              ((stream.drop received).take (remaining - received))
            rw [hl] at this
            rw [this]
            have e : remaining = received + (remaining - received) := by omega
            conv_rhs => rw [e, List.take_add]

theorem recv_all_spec (es : List RecvEvent) (stream : List Nat) (data : Buffer) (size : Nat)
    (r : Int) (data1 : Buffer) (stream1 : List Nat) (es1 : List RecvEvent)
    (h : recv_all es stream data size = some (r, data1, stream1, es1)) :
    (r = 0 ∨ r = -1) ∧
      (r = 0 → size ≤ stream.length ∧ stream1 = stream.drop size ∧
        bytes_at data1 0 size = stream.take size) := by
  obtain ⟨h1, h2⟩ := recv_all_loop_spec es stream data 0 size r data1 stream1 es1 h
  refine ⟨h1, fun hr => ?_⟩
  obtain ⟨h3, h4, h5⟩ := h2 hr
  refine ⟨h3, h4, ?_⟩
  have hl : (stream.take size).length = size := by simp [List.length_take, h3]
  have := bytes_at_write_at data 0 (stream.take size)
  rw [hl] at this
  rw [h5, this]

/-! ## Socket transport: the receiver's payload loop -/

theorem mod_acc (a x y : Nat) : ((a + x % U64) % U64 + y) % U64 = (a + (x + y)) % U64 := by
  unfold U64
  omega

theorem receiver_socket_loop_spec (total c : Nat) (hc : 0 < c) (fuel : Nat) (es : List RecvEvent)
    (stream : List Nat) (buffer : Buffer) (remaining checksum : Nat)
    (calls : List (Nat × Option Int)) :
    let r := receiver_socket_loop total c fuel es stream buffer remaining checksum calls
    ∃ new, r.calls = calls ++ new ∧
      (∃ rest, new.map Prod.fst ++ rest = chunk_sizes c remaining) ∧
      (remaining ≤ fuel → r.status ≠ .out_of_fuel) ∧
      (remaining ≤ fuel → (∀ call ∈ new, call.2 = some 0) → r.status = .returned 0) ∧
      (r.status = .returned 0 →
        (∀ call ∈ new, call.2 = some 0) ∧ new.map Prod.fst = chunk_sizes c remaining ∧
          remaining ≤ stream.length ∧ r.rest = stream.drop remaining ∧
          r.checksum % U64 = (checksum + byte_sum (stream.take remaining)) % U64) := by
  induction fuel generalizing es stream buffer remaining checksum calls with
  | zero =>
    unfold receiver_socket_loop
    by_cases h0 : remaining = 0
    · subst h0
      refine ⟨[], ?_⟩
      simp [chunk_sizes_zero, byte_sum]
    · simp only [h0, if_false]
      refine ⟨[], by simp, ⟨_, rfl⟩, by omega, by omega, by simp⟩
  | succ fuel ih =>
    unfold receiver_socket_loop
    by_cases h0 : remaining = 0
    · subst h0
      refine ⟨[], ?_⟩
      simp [chunk_sizes_zero, byte_sum]
    · simp only [h0, if_false]
      have hr : 0 < remaining := by omega
      have hstep := chunk_sizes_step c remaining hc hr
      generalize hss : (if remaining < c then remaining else c) = recv_size at hstep ⊢
      have hle : recv_size ≤ remaining := by rw [← hss]; split <;> omega
      have hpos : 0 < recv_size := by rw [← hss]; split <;> omega
      cases hra : recv_all es stream buffer recv_size with
      | none =>
        simp only
        refine ⟨[(recv_size, none)], rfl, ⟨_, by rw [hstep]; rfl⟩, by simp, by simp, by simp⟩
      | some res =>
        obtain ⟨r, buffer1, stream1, es1⟩ := res
        simp only
        obtain ⟨hr01, hok⟩ := recv_all_spec _ _ _ _ _ _ _ _ hra
        by_cases hr0 : r = 0
        · subst hr0
          simp only [ne_eq, not_true_eq_false, if_false]
          obtain ⟨hlen, hs1, hb1⟩ := hok rfl
          obtain ⟨new, hn1, ⟨rest, hn2⟩, hn3, hn4, hn5⟩ :=
            ih es1 stream1 buffer1 (remaining - recv_size)
              ((checksum + consume_buffer buffer1 recv_size) % U64)
              (calls ++ [(recv_size, some 0)])
          refine ⟨(recv_size, some 0) :: new, ?_, ⟨rest, ?_⟩, ?_, ?_, ?_⟩
          · rw [hn1]; simp
          · rw [hstep, List.map_cons, List.cons_append, hn2]
          · intro hf; exact hn3 (by omega)
          · intro hf hall
            exact hn4 (by omega) (fun call hcall => hall call (List.mem_cons_of_mem _ hcall))
          · intro hst
            obtain ⟨h1, h2, h3, h4, h5⟩ := hn5 hst
            rw [hs1, List.length_drop] at h3
            refine ⟨?_, ?_, by omega, ?_, ?_⟩
            · intro call hcall
              rcases List.mem_cons.mp hcall with rfl | hcall
              · rfl
              · exact h1 call hcall
            · rw [hstep, List.map_cons, h2]
            · rw [h4, hs1, List.drop_drop]
              congr 1
              omega
            · rw [h5, consume_buffer_eq, hb1, hs1, mod_acc, ← byte_sum_append]
              have e : remaining = recv_size + (remaining - recv_size) := by omega
              conv_rhs => rw [e, List.take_add]
        · simp only [ne_eq, hr0, not_false_eq_true, if_true]
          refine ⟨[(recv_size, some r), ], rfl, ⟨_, by rw [hstep]; rfl⟩, by simp, ?_, by simp⟩
          intro _ hall
          have := hall (recv_size, some r) (by simp)
          simp at this
          exact absurd this hr0

theorem receiver_socket_loop_checksum_lt (total c fuel : Nat) (es : List RecvEvent)
    (stream : List Nat) (buffer : Buffer) (remaining checksum : Nat)
    (calls : List (Nat × Option Int)) (hck : checksum < U64) :
    (receiver_socket_loop total c fuel es stream buffer remaining checksum calls).checksum
      < U64 := by
  induction fuel generalizing es stream buffer remaining checksum calls with
  | zero =>
    unfold receiver_socket_loop
    split <;> exact hck
  | succ fuel ih =>
    unfold receiver_socket_loop
    split
    · exact hck
    · simp only
      split
      · exact hck
      · split
        · exact hck
        · exact ih _ _ _ _ _ _ (Nat.mod_lt _ (by unfold U64; positivity))

/-! ## Header encoding round trip -/

theorem le_bytes_length (w v : Nat) : (le_bytes w v).length = w := by
  induction w generalizing v with
  | zero => rfl
  | succ w ih => simp [le_bytes, ih]

theorem le_value_le_bytes (w v : Nat) : le_value (le_bytes w v) = v % 256 ^ w := by
  induction w generalizing v with
  | zero => simp [le_bytes, le_value, Nat.mod_one]
  | succ w ih =>
    simp only [le_bytes, le_value, ih, Nat.mod_mod]
    rw [Nat.pow_succ, Nat.mul_comm (256 ^ w) 256, Nat.mod_mul]

theorem encode_length (bo : ByteOrder) (w v : Nat) : (encode bo w v).length = w := by
  cases bo <;> simp [encode, le_bytes_length]

theorem decode_encode (bo : ByteOrder) (w v : Nat) : decode bo (encode bo w v) = v % 256 ^ w := by
  cases bo <;> simp [encode, decode, le_value_le_bytes]

/-! ## Socket transport: whole runs -/

theorem sender_socket_loop_wire (c fuel : Nat) (os : List SendOutcome) (wire : List Nat)
    (buffer : Buffer) (remaining seed : Nat) (chunks : List (Nat × Nat)) :
    ∃ extra, (sender_socket_loop c fuel os wire buffer remaining seed chunks).wire
      = wire ++ extra := by
  induction fuel generalizing os wire buffer remaining seed chunks with
  | zero =>
    unfold sender_socket_loop
    split <;> exact ⟨[], by simp⟩
  | succ fuel ih =>
    unfold sender_socket_loop
    split
    · exact ⟨[], by simp⟩
    · simp only
      generalize (if remaining < c then remaining else c) = send_size
      cases hsa : send_all os wire (fill_pattern buffer send_size seed) send_size with
      | none => exact ⟨[], by simp⟩
      | some res =>
        obtain ⟨r, wire1, os1⟩ := res
        simp only
        obtain ⟨-, hw, hw2⟩ := send_all_loop_spec _ _ _ _ _ _ _ _ hsa
        by_cases hr0 : r = 0
        · subst hr0
          simp only [ne_eq, not_true_eq_false, if_false]
          obtain ⟨extra, he⟩ := ih os1 wire1 (fill_pattern buffer send_size seed)
            (remaining - send_size) ((seed + 1) % 256) (chunks ++ [(send_size, seed)])
          rw [he, hw rfl]
          exact ⟨_, List.append_assoc _ _ _⟩
        · simp only [ne_eq, hr0, not_false_eq_true, if_true]
          obtain ⟨n, -, hn⟩ := hw2 hr0
          exact ⟨_, hn⟩

theorem header_bytes_at (bo : ByteOrder) (w v : Nat) :
    bytes_at (write_at (fun _ => 0) 0 (encode bo w v)) 0 w = encode bo w v := by
  have h := bytes_at_write_at (fun _ => 0) 0 (encode bo w v)
  rwa [encode_length] at h

theorem sender_run_socket_wire (env : SenderEnv) (bo : ByteOrder) (fuel : Nat)
    (os : List SendOutcome) (total c : Nat) :
    (sender_run_socket env bo fuel os total c).wire.length < 12 ∨
      ∃ tail, (sender_run_socket env bo fuel os total c).wire
        = encode bo 8 (total % U64) ++ encode bo 4 (c % U32) ++ tail := by
  unfold sender_run_socket
  split
  · left; simp
  split
  · left; simp
  split
  · left; simp
  simp only
  cases hs1 : send_all os [] (write_at (fun _ => 0) 0 (encode bo 8 (total % U64))) 8 with
  | none => left; simp
  | some res =>
    obtain ⟨r, wire1, os1⟩ := res
    obtain ⟨-, hw, hw2⟩ := send_all_loop_spec _ _ _ _ _ _ _ _ hs1
    simp only
    by_cases hr0 : r = 0
    · subst hr0
      simp only [ne_eq, not_true_eq_false, if_false]
      have e1 : wire1 = encode bo 8 (total % U64) := by
        rw [hw rfl, header_bytes_at]; simp
      cases hs2 : send_all os1 wire1 (write_at (fun _ => 0) 0 (encode bo 4 (c % U32))) 4 with
      | none => left; simp [e1, encode_length]
      | some res2 =>
        obtain ⟨r2, wire2, os2⟩ := res2
        obtain ⟨-, hv, hv2⟩ := send_all_loop_spec _ _ _ _ _ _ _ _ hs2
        simp only
        by_cases hr2 : r2 = 0
        · subst hr2
          simp only [ne_eq, not_true_eq_false, if_false]
          have e2 : wire2 = encode bo 8 (total % U64) ++ encode bo 4 (c % U32) := by
            rw [hv rfl, header_bytes_at, e1]
          split
          · right; exact ⟨[], by simp [e2]⟩
          · right
            obtain ⟨extra, he⟩ := sender_socket_loop_wire c fuel os2 wire2 env.heap total 0 []
            exact ⟨extra, by rw [he, e2]⟩
        · simp only [ne_eq, hr2, not_false_eq_true, if_true]
          obtain ⟨n, hn1, hn2⟩ := hv2 hr2
          by_cases hn4 : n = 4
          · right
            subst hn4
            exact ⟨[], by rw [hn2, header_bytes_at, e1]; simp⟩
          · left
            rw [hn2, e1]
            simp [encode_length, bytes_at_length]
            omega
    · simp only [ne_eq, hr0, not_false_eq_true, if_true]
      left
      obtain ⟨n, hn1, hn2⟩ := hw2 hr0
      rw [hn2]
      simp [bytes_at_length]
      omega

theorem sender_run_socket_spec (env : SenderEnv) (bo : ByteOrder) (fuel : Nat)
    (os : List SendOutcome) (total c : Nat) (hc : 0 < c) :
    let r := sender_run_socket env bo fuel os total c
    (∃ rest, r.chunks ++ rest = with_seeds (chunk_sizes c total) 0 ∧
        (r.status = .returned 0 → rest = [] ∧
          r.wire = encode bo 8 (total % U64) ++ encode bo 4 (c % U32) ++
            (r.chunks.map pattern_bytes).flatten)) ∧
      (total ≤ fuel → r.status ≠ .out_of_fuel) := by
  unfold sender_run_socket
  split
  · exact ⟨⟨_, List.nil_append _, by simp⟩, by simp⟩
  split
  · exact ⟨⟨_, List.nil_append _, by simp⟩, by simp⟩
  split
  · exact ⟨⟨_, List.nil_append _, by simp⟩, by simp⟩
  simp only
  cases hs1 : send_all os [] (write_at (fun _ => 0) 0 (encode bo 8 (total % U64))) 8 with
  | none => exact ⟨⟨_, List.nil_append _, by simp⟩, by simp⟩
  | some res =>
    obtain ⟨r, wire1, os1⟩ := res
    obtain ⟨-, hw, -⟩ := send_all_loop_spec _ _ _ _ _ _ _ _ hs1
    simp only
    by_cases hr0 : r = 0
    · subst hr0
      simp only [ne_eq, not_true_eq_false, if_false]
      have e1 : wire1 = encode bo 8 (total % U64) := by
        rw [hw rfl, header_bytes_at]; simp
      cases hs2 : send_all os1 wire1 (write_at (fun _ => 0) 0 (encode bo 4 (c % U32))) 4 with
      | none => exact ⟨⟨_, List.nil_append _, by simp⟩, by simp⟩
      | some res2 =>
        obtain ⟨r2, wire2, os2⟩ := res2
        obtain ⟨-, hv, -⟩ := send_all_loop_spec _ _ _ _ _ _ _ _ hs2
        simp only
        by_cases hr2 : r2 = 0
        · subst hr2
          simp only [ne_eq, not_true_eq_false, if_false]
          have e2 : wire2 = encode bo 8 (total % U64) ++ encode bo 4 (c % U32) := by
            rw [hv rfl, header_bytes_at, e1]
          split
          · exact ⟨⟨_, List.nil_append _, by simp⟩, by simp⟩
          · obtain ⟨⟨p, rest, hp1, hp2, hp3⟩, hf⟩ :=
              sender_socket_loop_spec c hc fuel os2 wire2 env.heap total 0 0 [] rfl
            simp only [List.nil_append] at hp1
            refine ⟨⟨rest, by rw [hp1, hp2], ?_⟩, hf⟩
            intro hst
            obtain ⟨h1, h2⟩ := hp3 hst
            exact ⟨h1, by rw [h2, hp1, e2]⟩
        · simp only [ne_eq, hr2, not_false_eq_true, if_true]
          exact ⟨⟨_, List.nil_append _, by simp⟩, by simp⟩
    · simp only [ne_eq, hr0, not_false_eq_true, if_true]
      exact ⟨⟨_, List.nil_append _, by simp⟩, by simp⟩

theorem receiver_read_header_spec (bo : ByteOrder) (es : List RecvEvent) (stream : List Nat)
    (t c : Nat) (stream1 : List Nat) (es1 : List RecvEvent)
    (h : receiver_read_header bo es stream = .header t c stream1 es1) :
    12 ≤ stream.length ∧ t = decode bo (stream.take 8) ∧
      c = decode bo ((stream.drop 8).take 4) ∧ stream1 = stream.drop 12 := by
  unfold receiver_read_header at h
  cases h1 : recv_all es stream (fun _ => 0) 8 with
  | none => simp [h1] at h
  | some res =>
    obtain ⟨r, v1, s1, e1⟩ := res
    simp only [h1] at h
    by_cases hr : r = 0
    · subst hr
      simp only [ne_eq, not_true_eq_false, if_false] at h
      obtain ⟨-, hok⟩ := recv_all_spec _ _ _ _ _ _ _ _ h1
      obtain ⟨hl1, hs1, hb1⟩ := hok rfl
      cases h2 : recv_all e1 s1 (fun _ => 0) 4 with
      | none => simp [h2] at h
      | some res2 =>
        obtain ⟨r2, v2, s2, e2⟩ := res2
        simp only [h2] at h
        by_cases hr2 : r2 = 0
        · subst hr2
          simp only [ne_eq, not_true_eq_false, if_false] at h
          obtain ⟨-, hok2⟩ := recv_all_spec _ _ _ _ _ _ _ _ h2
          obtain ⟨hl2, hs2, hb2⟩ := hok2 rfl
          injection h with ht hc hst hes
          rw [hs1, List.length_drop] at hl2
          refine ⟨by omega, ?_, ?_, ?_⟩
          · rw [← ht, hb1]
          · rw [← hc, hb2, hs1]
          · rw [← hst, hs2, hs1, List.drop_drop]
        · simp [hr2] at h
    · simp [hr] at h

/-! ## Shared memory: the control invariant -/

theorem sender_shm_setup_ok (env : ShmEnv) (total c : Nat) (region : shm_region_t)
    (h : sender_shm_setup env total c = .ok region) :
    c ≤ SHM_BUFFER_SIZE ∧
      region = { can_write := 1, can_read := 0, chunk_size := c, total_bytes := total,
                 done := 0, buffer := fun _ => 0 } := by
  unfold sender_shm_setup at h
  split at h
  · cases h
  split at h
  · cases h
  split at h
  · cases h
  split at h
  · cases h
  split at h
  · cases h
  · injection h with h
    exact ⟨by omega, h.symm⟩

theorem inv_start (env : ShmEnv) (total c : Nat) (region : shm_region_t)
    (h : sender_shm_setup env total c = .ok region) : Inv c (shm_start region total c) := by
  obtain ⟨hc, rfl⟩ := sender_shm_setup_ok env total c region h
  constructor <;> simp [shm_start, sender_holds, receiver_holds, hc]

theorem inv_sender_step (c : Nat) (s t : System) (h : Inv c s) (hs : sender_step s = some t) :
    Inv c t := by
  obtain ⟨⟨cw, cr, csz, tb, dn, buf⟩, ⟨spc, sc, rem, seed, ss, P⟩, ⟨rpc, ck, sz, D, ds⟩⟩ := s
  obtain ⟨h1, h2, h3, h4, h5, h6, h7, h8, h9, h10⟩ := h
  simp only at h1 h2 h3 h4 h5 h6 h7 h8 h9 h10
  cases spc <;> simp only [sender_step] at hs
  all_goals (try split at hs)
  all_goals (first | (injection hs with hs; subst hs) | cases hs)
  all_goals constructor
  all_goals simp_all [sender_holds, receiver_holds]
  all_goals (try omega)
  · split <;> omega
  · cases rpc <;> simp_all

theorem inv_receiver_step (c : Nat) (s t : System) (h : Inv c s)
    (hs : receiver_step s = some t) : Inv c t := by
  obtain ⟨⟨cw, cr, csz, tb, dn, buf⟩, ⟨spc, sc, rem, seed, ss, P⟩, ⟨rpc, ck, sz, D, ds⟩⟩ := s
  obtain ⟨h1, h2, h3, h4, h5, h6, h7, h8, h9, h10⟩ := h
  simp only at h1 h2 h3 h4 h5 h6 h7 h8 h9 h10
  cases rpc <;> simp only [receiver_step] at hs
  all_goals (try split at hs)
  all_goals (first | (injection hs with hs; subst hs) | cases hs)
  all_goals constructor
  all_goals simp_all [sender_holds, receiver_holds]
  all_goals (try omega)
  cases spc <;> simp_all

theorem inv_step (c : Nat) (p : Proc) (s t : System) (h : Inv c s) (hs : step p s = some t) :
    Inv c t := by
  cases p
  · exact inv_sender_step c s t h hs
  · exact inv_receiver_step c s t h hs

theorem inv_reachable (total c : Nat) (s : System) (h : Reachable total c s) : Inv c s := by
  induction h with
  | start env region h => exact inv_start env total c region h
  | step p s t _ hs ih => exact inv_step c p s t ih hs

/-! ## Shared memory: the data invariant -/

theorem data_start (env : ShmEnv) (total c : Nat) (region : shm_region_t)
    (h : sender_shm_setup env total c = .ok region) : DataInv total c (shm_start region total c) := by
  obtain ⟨hc, rfl⟩ := sender_shm_setup_ok env total c region h
  constructor <;> simp [shm_start, pending, ahead, with_seeds, chunks_checksum, byte_sum]

theorem data_sender_step (total c : Nat) (s t : System) (h : Inv c s)
    (d : DataInv total c s) (hs : sender_step s = some t) : DataInv total c t := by
  obtain ⟨⟨cw, cr, csz, tb, dn, buf⟩, ⟨spc, sc, rem, seed, ss, P⟩, ⟨rpc, ck, sz, D, ds⟩⟩ := s
  obtain ⟨h1, h2, h3, h4, h5, h6, h7, h8, h9, h10⟩ := h
  obtain ⟨d1, d2, d3, d4, d5, d6, d7, d8⟩ := d
  simp only at h1 h2 h3 h4 h5 h6 h7 h8 h9 h10 d1 d2 d3 d4 d5 d6 d7 d8
  clear h3 h4 h5 h6 h7 h10
  cases spc <;> simp only [sender_step] at hs
  all_goals (try split at hs)
  all_goals (first | (injection hs with hs; subst hs) | cases hs)
  all_goals simp [sender_holds, pending, ahead] at h1 h8 h9 d3 d4 d5 d6 d7 d8
  all_goals constructor
  all_goals simp [pending, ahead]
  all_goals (try assumption)
  all_goals (try omega)
  case loop_test.isTrue.busy =>
    subst h2
    exact ⟨by omega, rfl⟩
  case fill.seeds =>
    rw [with_seeds_append, d1, d2]
    simp
  case fill.sizes =>
    intro hc
    rw [← d3 hc, chunk_sizes_step c rem hc d4.1, ← d4.2]
  case fill.last => exact ⟨P, seed, rfl⟩
  case fill.full =>
    have hcr : cr = 0 := by omega
    have hrh : receiver_holds ⟨rpc, ck, sz, D, ds⟩ = 0 := by omega
    have hsync := d8 hcr (by rintro rfl; simp [receiver_holds] at hrh)
      (by rintro rfl; simp [receiver_holds] at hrh) (by rintro rfl; simp [receiver_holds] at hrh)
    refine ⟨P, ss, seed, rfl, hsync.1, hsync.2, ?_, ?_⟩
    · intro i hi
      simp [fill_pattern_apply, hi]
    · rintro rfl
      simp [receiver_holds] at hrh
  case set_chunk.full =>
    obtain ⟨q, size, sd, hq, hrest⟩ := d7
    obtain ⟨q2, sd2, hq2⟩ := d5
    have := hq.symm.trans hq2
    have hlast := List.append_inj_right' this (by simp)
    simp at hlast
    obtain ⟨hsz, -⟩ := hlast
    subst hsz
    exact ⟨q, size, sd, hq, hrest.1, hrest.2.1, hrest.2.2.1, rfl, hrest.2.2.2⟩
  case final_post.full =>
    have hrh : receiver_holds ⟨rpc, ck, sz, D, ds⟩ = 0 := by omega
    rintro (rfl | rfl) <;> simp [receiver_holds] at hrh
  case final_post.synced =>
    have hcr : cr = 0 := by omega
    have hrh : receiver_holds ⟨rpc, ck, sz, D, ds⟩ = 0 := by omega
    intro hn1 hn2
    exact d8 hcr (by rintro rfl; simp [receiver_holds] at hrh) hn1 hn2

theorem checksum_step (q : List (Nat × Nat)) (size seed : Nat) (buf : Buffer)
    (hbuf : ∀ i, i < size → buf i = pattern_byte seed i) :
    (chunks_checksum q + consume_buffer buf size) % U64
      = chunks_checksum (q ++ [(size, seed)]) := by
  have e : consume_buffer buf size = byte_sum (pattern_bytes (size, seed)) % U64 := by
    rw [consume_buffer_congr buf (fill_pattern buf size seed) size, consume_buffer_eq,
      bytes_at_fill_pattern]
    intro i hi
    rw [fill_pattern_apply, if_pos hi, hbuf i hi]
  unfold chunks_checksum
  rw [e, List.map_append, List.flatten_append, byte_sum_append, ← Nat.add_mod]
  simp

set_option maxHeartbeats 1600000 in
theorem data_receiver_step (total c : Nat) (s t : System) (h : Inv c s)
    (d : DataInv total c s) (hs : receiver_step s = some t) : DataInv total c t := by
  obtain ⟨⟨cw, cr, csz, tb, dn, buf⟩, ⟨spc, sc, rem, seed, ss, P⟩, ⟨rpc, ck, sz, D, ds⟩⟩ := s
  obtain ⟨h1, h2, h3, h4, h5, h6, h7, h8, h9, h10⟩ := h
  obtain ⟨d1, d2, d3, d4, d5, d6, d7, d8⟩ := d
  simp only at h1 h2 h3 h4 h5 h6 h7 h8 h9 h10 d1 d2 d3 d4 d5 d6 d7 d8
  clear h3 h5 h6 h7 h10
  cases rpc <;> simp only [receiver_step] at hs
  all_goals (try split at hs)
  all_goals (first | (injection hs with hs; subst hs) | cases hs)
  all_goals simp [receiver_holds, pending, ahead] at h1 h8 h9 d3 d4 d5 d6 d7 d8
  all_goals constructor
  all_goals simp [pending, ahead]
  all_goals (try assumption)
  all_goals clear d1 d2 d3 d4 d5 d6
  all_goals (cases spc <;> simp [sender_holds] at h1 h4 h9 d7 d8 ⊢)
  all_goals (try assumption)
  all_goals (try omega)
  all_goals first
    | exact d7 (by assumption)
    | (intro _
       obtain ⟨q, size, sd, rfl, rfl, rfl, hb, rfl, rfl⟩ := d7
       exact ⟨by simp, checksum_step q sz sd buf hb⟩)

theorem data_step (total c : Nat) (p : Proc) (s t : System) (h : Inv c s)
    (d : DataInv total c s) (hs : step p s = some t) : DataInv total c t := by
  cases p
  · exact data_sender_step total c s t h d hs
  · exact data_receiver_step total c s t h d hs

theorem data_reachable (total c : Nat) (s : System) (h : Reachable total c s) :
    DataInv total c s := by
  induction h with
  | start env region h => exact data_start env total c region h
  | step p s t hr hs ih => exact data_step total c p s t (inv_reachable total c s hr) ih hs

/-! ## Shared memory: a complete run exists -/

theorem reachable_run_schedule (total c : Nat) (ps : List Proc) (s : System)
    (h : Reachable total c s) : Reachable total c (run_schedule ps s) := by
  induction ps generalizing s with
  | nil => exact h
  | cons p ps ih =>
    unfold run_schedule
    cases hp : step p s with
    | none => exact ih s h
    | some t => exact ih t (Reachable.step p s t h hp)

theorem run_schedule_append (ps qs : List Proc) (s : System) :
    run_schedule (ps ++ qs) s = run_schedule qs (run_schedule ps s) := by
  induction ps generalizing s with
  | nil => rfl
  | cons p ps ih =>
    simp only [List.cons_append, run_schedule]
    cases step p s <;> simp [ih]

theorem round_idle (c r : Nat) (s : System) (h : idle c r s) (hr : 0 < r) :
    idle c (r - (if r < c then r else c)) (run_schedule handoff_round s) := by
  obtain ⟨⟨cw, cr, csz, tb, dn, buf⟩, ⟨spc, sc, rem, seed, ss, P⟩, ⟨rpc, ck, sz, D, ds⟩⟩ := s
  obtain ⟨h1, h2, h3, h4, h5, h6⟩ := h
  simp only at h1 h2 h3 h4 h5 h6
  subst h1 h2 h3 h4 h5 h6
  simp [handoff_round, run_schedule, step, sender_step, receiver_step, idle, hr]

theorem final_idle (c : Nat) (s : System) (h : idle c 0 s) :
    (run_schedule handoff_final s).sender.pc = .exited ∧
      (run_schedule handoff_final s).receiver.pc = .exited := by
  obtain ⟨⟨cw, cr, csz, tb, dn, buf⟩, ⟨spc, sc, rem, seed, ss, P⟩, ⟨rpc, ck, sz, D, ds⟩⟩ := s
  obtain ⟨h1, h2, h3, h4, h5, h6⟩ := h
  simp only at h1 h2 h3 h4 h5 h6
  subst h1 h2 h3 h4 h5 h6
  simp [handoff_final, run_schedule, step, sender_step, receiver_step]

theorem idle_completes (c : Nat) (hc : 0 < c) (r : Nat) (s : System) (h : idle c r s) :
    ∃ ps, (run_schedule ps s).sender.pc = .exited ∧
      (run_schedule ps s).receiver.pc = .exited := by
  induction r using Nat.strong_induction_on generalizing s with
  | _ r ih =>
    by_cases hr : r = 0
    · subst hr
      exact ⟨handoff_final, final_idle c s h⟩
    · have hpos : 0 < r := by omega
      have hlt : r - (if r < c then r else c) < r := by split <;> omega
      obtain ⟨ps, hps⟩ := ih _ hlt _ (round_idle c r s h hpos)
      exact ⟨handoff_round ++ ps, by rw [run_schedule_append]; exact hps⟩

theorem complete_run_exists (env : ShmEnv) (total c : Nat) (region : shm_region_t)
    (hc : 0 < c) (h : sender_shm_setup env total c = .ok region) :
    ∃ s, Reachable total c s ∧ s.sender.pc = .exited ∧ s.receiver.pc = .exited := by
  have hi : idle c total (shm_start region total c) := by
    obtain ⟨-, rfl⟩ := sender_shm_setup_ok env total c region h
    simp [idle, shm_start]
  obtain ⟨ps, hps⟩ := idle_completes c hc total _ hi
  exact ⟨_, reachable_run_schedule total c ps _ (Reachable.start env region h), hps⟩

/-! ## `recv_all`: all or fail -/

theorem recv_all_loop_zero (es : List RecvEvent) (stream : List Nat) (data : Buffer)
    (ptr : Nat) : recv_all_loop es stream data ptr 0 = some (0, data, stream, es) := by
  cases es <;> simp [recv_all_loop]

theorem recv_all_loop_eintr (es : List RecvEvent) (stream : List Nat) (data : Buffer)
    (ptr remaining : Nat) (h : remaining ≠ 0) :
    recv_all_loop (.eintr :: es) stream data ptr remaining
      = recv_all_loop es stream data ptr remaining := by
  simp [recv_all_loop, h]

theorem recv_all_loop_trace (es : List RecvEvent) (stream : List Nat) (data : Buffer)
    (ptr r : Nat) (ret : Int) (d : Buffer) (st : List Nat) (e : List RecvEvent)
    (hfit : Fits es r stream.length)
    (h : recv_all_loop es stream data ptr r = some (ret, d, st, e)) :
    (ret = 0 → ∃ pre, es = pre ++ e ∧ (∀ x ∈ pre, clean x) ∧ event_bytes pre = r) ∧
      (ret = -1 → ∃ pre bad, es = pre ++ bad :: e ∧ (∀ x ∈ pre, clean x) ∧
        event_bytes pre < r ∧ (bad = .ready 0 ∨ bad = .err)) := by
  induction es generalizing stream data ptr r with
  | nil =>
    unfold recv_all_loop at h
    by_cases h0 : r = 0
    · simp [h0] at h
      obtain ⟨rfl, -, -, rfl⟩ := h
      exact ⟨fun _ => ⟨[], rfl, by simp, by simp [event_bytes, h0]⟩, by simp⟩
    · simp [h0] at h
  | cons ev es ih =>
    unfold recv_all_loop at h
    by_cases h0 : r = 0
    · simp [h0] at h
      obtain ⟨rfl, -, -, rfl⟩ := h
      exact ⟨fun _ => ⟨[], rfl, by simp, by simp [event_bytes, h0]⟩, by simp⟩
    · simp only [h0, if_false] at h
      cases ev with
      | eintr =>
        have hf : Fits es r stream.length := by
          simp only [Fits] at hfit
          rcases hfit with hfit | hfit
          · exact absurd hfit h0
          · exact hfit
        obtain ⟨i1, i2⟩ := ih _ _ _ _ hf h
        constructor
        · intro hr
          obtain ⟨pre, hp1, hp2, hp3⟩ := i1 hr
          refine ⟨.eintr :: pre, by rw [hp1]; rfl, ?_, by simpa [event_bytes] using hp3⟩
          intro x hx
          rcases List.mem_cons.mp hx with rfl | hx
          · trivial
          · exact hp2 x hx
        · intro hr
          obtain ⟨pre, bad, hp1, hp2, hp3, hp4⟩ := i2 hr
          refine ⟨.eintr :: pre, bad, by rw [hp1]; rfl, ?_, by simpa [event_bytes] using hp3, hp4⟩
          intro x hx
          rcases List.mem_cons.mp hx with rfl | hx
          · trivial
          · exact hp2 x hx
      | err =>
        simp at h
        obtain ⟨rfl, -, -, rfl⟩ := h
        refine ⟨by simp, fun _ => ⟨[], .err, rfl, by simp, ?_, Or.inr rfl⟩⟩
        simp [event_bytes]; omega
      | ready n =>
        simp only [Fits] at hfit
        rcases hfit with hfit | ⟨hn1, hn2, hn3⟩
        · exact absurd hfit h0
        have hrec : min n (min r stream.length) = n := by omega
        simp only [hrec] at h
        by_cases hz : n = 0
        · simp [hz] at h
          obtain ⟨rfl, -, -, rfl⟩ := h
          refine ⟨by simp, fun _ => ⟨[], .ready 0, by rw [hz]; rfl, by simp, ?_, Or.inl rfl⟩⟩
          simp [event_bytes]; omega
        · simp only [hz, if_false] at h
          have hf : Fits es (r - n) (stream.drop n).length := by
            rcases hn3 with hn3 | hn3
            · exact absurd hn3 hz
            · simpa [List.length_drop] using hn3
          obtain ⟨i1, i2⟩ := ih _ _ _ _ hf h
          constructor
          · intro hr
            obtain ⟨pre, hp1, hp2, hp3⟩ := i1 hr
            refine ⟨.ready n :: pre, by rw [hp1]; rfl, ?_, by simp [event_bytes, hp3]; omega⟩
            intro x hx
            rcases List.mem_cons.mp hx with rfl | hx
            · exact Nat.pos_of_ne_zero hz
            · exact hp2 x hx
          · intro hr
            obtain ⟨pre, bad, hp1, hp2, hp3, hp4⟩ := i2 hr
            refine ⟨.ready n :: pre, bad, by rw [hp1]; rfl, ?_,
              by simp [event_bytes]; omega, hp4⟩
            intro x hx
            rcases List.mem_cons.mp hx with rfl | hx
            · exact Nat.pos_of_ne_zero hz
            · exact hp2 x hx

theorem recv_all_loop_succeeds (pre post : List RecvEvent) (stream : List Nat) (data : Buffer)
    (ptr r : Nat) (hclean : ∀ x ∈ pre, clean x) (hbytes : event_bytes pre = r)
    (hfit : Fits (pre ++ post) r stream.length) :
    ∃ d st e, recv_all_loop (pre ++ post) stream data ptr r = some (0, d, st, e) := by
  induction pre generalizing stream data ptr r with
  | nil =>
    simp [event_bytes] at hbytes
    subst hbytes
    exact ⟨_, _, _, recv_all_loop_zero _ _ _ _⟩
  | cons ev pre ih =>
    by_cases h0 : r = 0
    · subst h0
      exact ⟨_, _, _, recv_all_loop_zero _ _ _ _⟩
    have hc := hclean ev (List.mem_cons_self _ _)
    have hrest : ∀ x ∈ pre, clean x := fun x hx => hclean x (List.mem_cons_of_mem _ hx)
    cases ev with
    | eintr =>
      simp only [List.cons_append, Fits] at hfit
      rcases hfit with hfit | hfit
      · exact absurd hfit h0
      rw [List.cons_append, recv_all_loop_eintr _ _ _ _ _ h0]
      exact ih _ _ _ _ hrest (by simpa [event_bytes] using hbytes) hfit
    | err => exact absurd hc (by simp [clean])
    | ready n =>
      have hn : 0 < n := hc
      simp only [List.cons_append, Fits] at hfit
      rcases hfit with hfit | ⟨hn1, hn2, hn3⟩
      · exact absurd hfit h0
      rcases hn3 with hn3 | hn3
      · omega
      have hrec : min n (min r stream.length) = n := by omega
      have hz : n ≠ 0 := by omega
      simp only [List.cons_append, recv_all_loop, h0, if_false, hrec, hz]
      apply ih
      · exact hrest
      · simp [event_bytes] at hbytes; omega
      · simpa [List.length_drop] using hn3

theorem recv_all_loop_fails (pre post : List RecvEvent) (bad : RecvEvent) (stream : List Nat)
    (data : Buffer) (ptr r : Nat) (hclean : ∀ x ∈ pre, clean x) (hbytes : event_bytes pre < r)
    (hbad : bad = .ready 0 ∨ bad = .err) (hfit : Fits (pre ++ bad :: post) r stream.length) :
    ∃ d st e, recv_all_loop (pre ++ bad :: post) stream data ptr r = some (-1, d, st, e) := by
  induction pre generalizing stream data ptr r with
  | nil =>
    have h0 : r ≠ 0 := by omega
    rcases hbad with rfl | rfl
    · exact ⟨data, stream, post, by simp [recv_all_loop, h0]⟩
    · exact ⟨data, stream, post, by simp [recv_all_loop, h0]⟩
  | cons ev pre ih =>
    have h0 : r ≠ 0 := by omega
    have hc := hclean ev (List.mem_cons_self _ _)
    have hrest : ∀ x ∈ pre, clean x := fun x hx => hclean x (List.mem_cons_of_mem _ hx)
    cases ev with
    | eintr =>
      simp only [List.cons_append, Fits] at hfit
      rcases hfit with hfit | hfit
      · exact absurd hfit h0
      rw [List.cons_append, recv_all_loop_eintr _ _ _ _ _ h0]
      exact ih _ _ _ _ hrest (by simpa [event_bytes] using hbytes) hfit
    | err => exact absurd hc (by simp [clean])
    | ready n =>
      have hn : 0 < n := hc
      simp only [List.cons_append, Fits] at hfit
      rcases hfit with hfit | ⟨hn1, hn2, hn3⟩
      · exact absurd hfit h0
      rcases hn3 with hn3 | hn3
      · omega
      have hrec : min n (min r stream.length) = n := by omega
      have hz : n ≠ 0 := by omega
      simp only [List.cons_append, recv_all_loop, h0, if_false, hrec, hz]
      apply ih
      · exact hrest
      · simp [event_bytes] at hbytes; omega
      · simpa [List.length_drop] using hn3

/-! ## The claims: socket transport -/

theorem payload_length (l : List Nat) (k : Nat) :
    ((with_seeds l k).map pattern_bytes).flatten.length = l.sum := by
  induction l generalizing k with
  | nil => simp [with_seeds]
  | cons a l ih => simp [with_seeds, pattern_bytes, ih]

theorem send_all_took (a : Nat) (rest : List SendOutcome) (wire : List Nat) (data : Buffer)
    (size : Nat) (hs : 0 < size) (ha : size ≤ a) :
    send_all (.took a :: rest) wire data size = some (0, wire ++ bytes_at data 0 size, rest) := by
  have h0 : size ≠ 0 := by omega
  have hm : min a size = size := by omega
  unfold send_all
  simp only [send_all_loop, h0, if_false, hm, Nat.sub_self]
  cases rest <;> simp [send_all_loop]

theorem recv_all_ready (m : Nat) (rest : List RecvEvent) (stream : List Nat) (data : Buffer)
    (size : Nat) (hs : 0 < size) (hm : size ≤ m) (hl : size ≤ stream.length) :
    recv_all (.ready m :: rest) stream data size
      = some (0, write_at data 0 (stream.take size), stream.drop size, rest) := by
  have h0 : size ≠ 0 := by omega
  have hrec : min m (min size stream.length) = size := by omega
  unfold recv_all
  simp only [recv_all_loop, h0, if_false, hrec, Nat.sub_self]
  exact recv_all_loop_zero _ _ _ _

theorem sender_socket_loop_completes (c m : Nat) (hc : 0 < c) (hm : c ≤ m) (fuel k : Nat)
    (wire : List Nat) (buffer : Buffer) (remaining seed : Nat) (chunks : List (Nat × Nat))
    (hf : remaining ≤ fuel) (hk : remaining ≤ k) :
    (sender_socket_loop c fuel (List.replicate k (.took m)) wire buffer remaining seed
      chunks).status = .returned 0 := by
  induction fuel generalizing k wire buffer remaining seed chunks with
  | zero =>
    have h0 : remaining = 0 := by omega
    simp [sender_socket_loop, h0]
  | succ fuel ih =>
    unfold sender_socket_loop
    by_cases h0 : remaining = 0
    · simp [h0]
    · simp only [h0, if_false]
      generalize hss : (if remaining < c then remaining else c) = send_size
      have hle : send_size ≤ remaining := by rw [← hss]; split <;> omega
      have hpos : 0 < send_size := by rw [← hss]; split <;> omega
      have hsm : send_size ≤ m := by rw [← hss]; split <;> omega
      obtain ⟨k1, rfl⟩ : ∃ k1, k = k1 + 1 := ⟨k - 1, by omega⟩
      rw [List.replicate_succ, send_all_took m _ _ _ send_size hpos hsm]
      simp only [ne_eq, not_true_eq_false, if_false]
      exact ih k1 _ _ _ _ _ (by omega) (by omega)

theorem receiver_socket_loop_completes (total c m : Nat) (hc : 0 < c) (hm : c ≤ m)
    (fuel k : Nat) (stream : List Nat) (buffer : Buffer) (remaining checksum : Nat)
    (calls : List (Nat × Option Int))
    (hf : remaining ≤ fuel) (hk : remaining ≤ k) (hl : remaining ≤ stream.length) :
    (receiver_socket_loop total c fuel (List.replicate k (.ready m)) stream buffer remaining
      checksum calls).status = .returned 0 := by
  induction fuel generalizing k stream buffer remaining checksum calls with
  | zero =>
    have h0 : remaining = 0 := by omega
    simp [receiver_socket_loop, h0]
  | succ fuel ih =>
    unfold receiver_socket_loop
    by_cases h0 : remaining = 0
    · simp [h0]
    · simp only [h0, if_false]
      generalize hss : (if remaining < c then remaining else c) = recv_size
      have hle : recv_size ≤ remaining := by rw [← hss]; split <;> omega
      have hpos : 0 < recv_size := by rw [← hss]; split <;> omega
      have hsm : recv_size ≤ m := by rw [← hss]; split <;> omega
      obtain ⟨k1, rfl⟩ : ∃ k1, k = k1 + 1 := ⟨k - 1, by omega⟩
      rw [List.replicate_succ, recv_all_ready m _ _ _ recv_size hpos hsm (by omega)]
      simp only [ne_eq, not_true_eq_false, if_false]
      exact ih k1 _ _ _ _ _ (by omega) (by omega) (by simp [List.length_drop]; omega)

/-- Over a connection that takes `chunk_size + 8` bytes per `send`, the
sender's `run_socket` returns 0. -/
theorem sender_run_socket_completes (bo : ByteOrder) (total c : Nat) (hc : 0 < c) :
    (sender_run_socket sender_env_ok bo total (List.replicate (total + 2) (.took (c + 8)))
        total c).status = .returned 0 := by
  unfold sender_run_socket
  simp only [sender_env_ok, Bool.not_true, Bool.false_eq_true, if_false]
  rw [show total + 2 = (total + 1) + 1 from rfl, List.replicate_succ,
    send_all_took (c + 8) _ _ _ 8 (by omega) (by omega)]
  simp only [ne_eq, not_true_eq_false, if_false]
  rw [List.replicate_succ, send_all_took (c + 8) _ _ _ 4 (by omega) (by omega)]
  simp only [ne_eq, not_true_eq_false, if_false]
  exact sender_socket_loop_completes c (c + 8) hc (by omega) total total _ _ total 0 []
    (Nat.le_refl _) (Nat.le_refl _)

/-- Over a connection that takes and delivers `chunk_size + 8` bytes per call,
both `run_socket` functions return 0. -/
theorem socket_transfer_completes (bo : ByteOrder) (total c : Nat) (hc : 0 < c)
    (ht : total < U64) (hc32 : c < U32) :
    (sender_run_socket sender_env_ok bo total (List.replicate (total + 2) (.took (c + 8)))
        total c).status = .returned 0 ∧
      (receiver_run_socket receiver_env_ok bo total (List.replicate (total + 2) (.ready (c + 8)))
        (sender_run_socket sender_env_ok bo total (List.replicate (total + 2) (.took (c + 8)))
          total c).wire).status = .returned 0 := by
  have hs := sender_run_socket_completes bo total c hc
  refine ⟨hs, ?_⟩
  obtain ⟨⟨rest, h1, h2⟩, -⟩ := sender_run_socket_spec sender_env_ok bo total
    (List.replicate (total + 2) (.took (c + 8))) total c hc
  obtain ⟨hrest, hwire⟩ := h2 hs
  subst hrest
  rw [List.append_nil] at h1
  have hlen : ((sender_run_socket sender_env_ok bo total
      (List.replicate (total + 2) (.took (c + 8))) total c).chunks.map
        pattern_bytes).flatten.length = total := by
    rw [h1, payload_length, chunk_sizes_sum]
  generalize (sender_run_socket sender_env_ok bo total
      (List.replicate (total + 2) (.took (c + 8))) total c).wire = wire at hwire ⊢
  generalize ((sender_run_socket sender_env_ok bo total
      (List.replicate (total + 2) (.took (c + 8))) total c).chunks.map
        pattern_bytes).flatten = payload at hwire hlen
  have hwl : wire.length = 12 + total := by
    rw [hwire]; simp [encode_length, hlen]; omega
  have e8 : wire.take 8 = encode bo 8 (total % U64) := by
    rw [hwire, List.append_assoc, List.take_left' (encode_length bo 8 _)]
  have e4 : (wire.drop 8).take 4 = encode bo 4 (c % U32) := by
    rw [hwire, List.append_assoc, List.drop_left' (encode_length bo 8 _),
      List.take_left' (encode_length bo 4 _)]
  have p64 : (256 : Nat) ^ 8 = U64 := by unfold U64; norm_num
  have p32 : (256 : Nat) ^ 4 = U32 := by unfold U32; norm_num
  have hh : receiver_read_header bo (List.replicate (total + 2) (.ready (c + 8))) wire
      = .header total c (wire.drop 12) (List.replicate total (.ready (c + 8))) := by
    unfold receiver_read_header
    rw [show total + 2 = (total + 1) + 1 from rfl, List.replicate_succ,
      recv_all_ready (c + 8) _ _ _ 8 (by omega) (by omega) (by omega)]
    simp only [ne_eq, not_true_eq_false, if_false]
    rw [List.replicate_succ,
      recv_all_ready (c + 8) _ _ _ 4 (by omega) (by omega) (by simp [List.length_drop]; omega)]
    simp only [ne_eq, not_true_eq_false, if_false]
    have b8 : bytes_at (write_at (fun _ => 0) 0 (wire.take 8)) 0 8 = wire.take 8 := by
      have := bytes_at_write_at (fun _ => 0) 0 (wire.take 8)
      rwa [show (wire.take 8).length = 8 by simp [List.length_take]; omega] at this
    have b4 : bytes_at (write_at (fun _ => 0) 0 ((wire.drop 8).take 4)) 0 4
        = (wire.drop 8).take 4 := by
      have := bytes_at_write_at (fun _ => 0) 0 ((wire.drop 8).take 4)
      rwa [show ((wire.drop 8).take 4).length = 4 by
        simp [List.length_take, List.length_drop]; omega] at this
    rw [b8, b4, e8, e4, decode_encode, decode_encode, p64, p32, Nat.mod_mod, Nat.mod_mod,
      Nat.mod_eq_of_lt ht, Nat.mod_eq_of_lt hc32, List.drop_drop]
  unfold receiver_run_socket
  simp only [receiver_env_ok, Bool.not_true, Bool.false_eq_true, if_false, hh]
  rw [Nat.mod_eq_of_lt ht]
  exact receiver_socket_loop_completes total c (c + 8) hc (by omega) total total _ _ total 0 []
    (Nat.le_refl _) (Nat.le_refl _) (by simp [List.length_drop]; omega)

/-- C1, exact byte accounting.  For every `total_bytes` and every
`chunk_size > 0`, whatever the connection does, the payload loop of the
receiver's `run_socket` does not run out of fuel once the fuel is at least
`total_bytes`; and when every `recv_all` call it makes returns 0, the loop
terminates normally, the `recv_size` values it requested sum to exactly
`total_bytes` (they are the chunking of `total_bytes`), exactly the first
`total_bytes` bytes of the stream were taken, and they are what the
checksum folds.  Such runs exist: over a connection that delivers `chunk_size`
bytes per `recv` from a stream of at least `total_bytes` bytes, every
`recv_all` call returns 0. -/
theorem receiver_exact_byte_accounting (total_bytes chunk_size : Nat) (hc : 0 < chunk_size)
    (fuel : Nat) (hfuel : total_bytes ≤ fuel) (es : List RecvEvent) (stream : List Nat)
    (buffer : Buffer) :
    (receiver_socket_loop total_bytes chunk_size fuel es stream buffer total_bytes 0 []).status
        ≠ .out_of_fuel ∧
      ((∀ call ∈
          (receiver_socket_loop total_bytes chunk_size fuel es stream buffer total_bytes 0 []).calls,
          call.2 = some 0) →
        (receiver_socket_loop total_bytes chunk_size fuel es stream buffer total_bytes 0 []).status
            = .returned 0 ∧
          ((receiver_socket_loop total_bytes chunk_size fuel es stream buffer total_bytes 0
            []).calls.map Prod.fst).sum = total_bytes ∧
          (receiver_socket_loop total_bytes chunk_size fuel es stream buffer total_bytes 0
            []).calls.map Prod.fst = chunk_sizes chunk_size total_bytes ∧
          total_bytes ≤ stream.length ∧
          (receiver_socket_loop total_bytes chunk_size fuel es stream buffer total_bytes 0
            []).rest = stream.drop total_bytes ∧
          (receiver_socket_loop total_bytes chunk_size fuel es stream buffer total_bytes 0
            []).checksum = byte_sum (stream.take total_bytes) % U64) ∧
      (total_bytes ≤ stream.length →
        ∀ call ∈
          (receiver_socket_loop total_bytes chunk_size fuel
            (List.replicate total_bytes (.ready chunk_size)) stream buffer total_bytes 0 []).calls,
          call.2 = some 0) := by
  obtain ⟨new, h1, -, h3, h4, h5⟩ :=
    receiver_socket_loop_spec total_bytes chunk_size hc fuel es stream buffer total_bytes 0 []
  simp only [List.nil_append] at h1
  have hlt := receiver_socket_loop_checksum_lt total_bytes chunk_size fuel es stream buffer
    total_bytes 0 [] (by unfold U64; positivity)
  refine ⟨h3 hfuel, fun hall => ?_, fun hlen => ?_⟩
  · rw [h1] at hall ⊢
    have hst := h4 hfuel hall
    obtain ⟨-, h6, h7, h8, h9⟩ := h5 hst
    refine ⟨hst, ?_, h6, h7, h8, ?_⟩
    · rw [h6, chunk_sizes_sum]
    · rw [Nat.mod_eq_of_lt hlt] at h9
      simpa using h9
  · have hst := receiver_socket_loop_completes total_bytes chunk_size chunk_size hc
      (Nat.le_refl _) fuel total_bytes stream buffer total_bytes 0 [] hfuel (Nat.le_refl _) hlen
    obtain ⟨new2, g1, -, -, -, g5⟩ :=
      receiver_socket_loop_spec total_bytes chunk_size hc fuel
        (List.replicate total_bytes (.ready chunk_size)) stream buffer total_bytes 0 []
    simp only [List.nil_append] at g1
    rw [g1]
    exact (g5 hst).1

/-- Witness for C1: 10 bytes in chunks of 4 over a connection delivering 4, 4
and 2 bytes. -/
theorem receiver_exact_byte_accounting_witness :
    0 < 4 ∧ 10 ≤ 10 ∧
      ((receiver_socket_loop 10 4 10 [.ready 4, .ready 4, .ready 2] (List.range 10)
        (fun _ => 0) 10 0 []).calls.map Prod.fst).sum = 10 :=
  ⟨by decide, by decide,
    ((receiver_exact_byte_accounting 10 4 (by decide) 10 (by decide)
      [.ready 4, .ready 4, .ready 2] (List.range 10) (fun _ => 0)).2.1 (by decide)).2.1⟩

/-- C2, last-chunk sizing.  For every `total_bytes` and every `chunk_size > 0`
the `send_size` values of the sender's chunk loop are, in order, a leading
part of the list made of `total_bytes / chunk_size` chunks of `chunk_size`
followed, when `total_bytes mod chunk_size` is not zero, by one chunk of
`total_bytes mod chunk_size`; they are the whole list once the loop has ended
(the socket `run_socket` returned 0, the shared-memory sender is past its
loop).  The socket loop does not run out of fuel once the fuel is at least
`total_bytes`.  When the remainder is not zero it occurs exactly once in the
list, as its last element.  Complete runs exist on both transports. -/
theorem sender_last_chunk_sizing (total_bytes chunk_size : Nat) (hc : 0 < chunk_size) :
    (∀ (env : SenderEnv) (bo : ByteOrder) (fuel : Nat) (os : List SendOutcome),
      (∃ rest, (sender_run_socket env bo fuel os total_bytes chunk_size).chunks.map Prod.fst ++ rest
          = List.replicate (total_bytes / chunk_size) chunk_size ++
            (if total_bytes % chunk_size = 0 then [] else [total_bytes % chunk_size])) ∧
        ((sender_run_socket env bo fuel os total_bytes chunk_size).status = .returned 0 →
          (sender_run_socket env bo fuel os total_bytes chunk_size).chunks.map Prod.fst
            = List.replicate (total_bytes / chunk_size) chunk_size ++
              (if total_bytes % chunk_size = 0 then [] else [total_bytes % chunk_size])) ∧
        (total_bytes ≤ fuel →
          (sender_run_socket env bo fuel os total_bytes chunk_size).status ≠ .out_of_fuel)) ∧
      (∀ s, Reachable total_bytes chunk_size s →
        (∃ rest, s.sender.produced.map Prod.fst ++ rest
          = List.replicate (total_bytes / chunk_size) chunk_size ++
            (if total_bytes % chunk_size = 0 then [] else [total_bytes % chunk_size])) ∧
        (s.sender.pc = .final_wait ∨ s.sender.pc = .set_done ∨ s.sender.pc = .final_post ∨
            s.sender.pc = .exited →
          s.sender.produced.map Prod.fst
            = List.replicate (total_bytes / chunk_size) chunk_size ++
              (if total_bytes % chunk_size = 0 then [] else [total_bytes % chunk_size]))) ∧
      (total_bytes % chunk_size ≠ 0 →
        (List.replicate (total_bytes / chunk_size) chunk_size ++
          (if total_bytes % chunk_size = 0 then [] else [total_bytes % chunk_size])).count
            (total_bytes % chunk_size) = 1) ∧
      (∀ bo : ByteOrder,
        (sender_run_socket sender_env_ok bo total_bytes
          (List.replicate (total_bytes + 2) (.took (chunk_size + 8))) total_bytes
          chunk_size).status = .returned 0) ∧
      (chunk_size ≤ SHM_BUFFER_SIZE →
        ∃ s, Reachable total_bytes chunk_size s ∧ s.sender.pc = .exited) := by
  refine ⟨?_, ?_, ?_, fun bo => sender_run_socket_completes bo total_bytes chunk_size hc, ?_⟩
  rotate_right
  · intro hcap
    obtain ⟨s, h1, h2, -⟩ := complete_run_exists shm_env_ok total_bytes chunk_size
      (fresh_region total_bytes chunk_size) hc
      (by simp [sender_shm_setup, shm_env_ok, fresh_region, Nat.not_lt.mpr hcap])
    exact ⟨s, h1, h2⟩
  · intro env bo fuel os
    obtain ⟨⟨rest, h1, h2⟩, h3⟩ := sender_run_socket_spec env bo fuel os total_bytes chunk_size hc
    have hm := congrArg (List.map Prod.fst) h1
    rw [List.map_append, with_seeds_map_fst] at hm
    refine ⟨⟨_, hm⟩, ?_, h3⟩
    intro hst
    obtain ⟨hr, -⟩ := h2 hst
    rw [hr] at hm
    simpa using hm
  · intro s hs
    have hd := data_reachable total_bytes chunk_size s hs
    have hsz := hd.sizes hc
    refine ⟨⟨_, hsz⟩, ?_⟩
    intro hpc
    have hrem := hd.fin hpc
    have hp : pending s.sender = 0 := by
      unfold pending
      rcases hpc with h | h | h | h <;> simp [h, hrem]
    rw [hp, chunk_sizes_zero, List.append_nil] at hsz
    exact hsz
  · intro hne
    have hlt := Nat.mod_lt total_bytes hc
    have hne2 : chunk_size ≠ total_bytes % chunk_size := by omega
    simp [hne, List.count_append, List.count_replicate, hne2]

/-- Witness for C2: 10 bytes in chunks of 4 over the socket give the sizes
4, 4, 2. -/
theorem sender_last_chunk_sizing_witness :
    0 < 4 ∧
      (sender_run_socket sender_env_ok .little 10
        [.took 8, .took 4, .took 4, .took 4, .took 2] 10 4).chunks.map Prod.fst = [4, 4, 2] :=
  ⟨by decide,
    ((sender_last_chunk_sizing 10 4 (by decide)).1 sender_env_ok .little 10
      [.took 8, .took 4, .took 4, .took 4, .took 2]).2.1 (by decide)⟩

/-- After a complete run of the sender's `run_socket` the wire holds, behind
the 12 header bytes, the pattern bytes of all chunks: `total_bytes` bytes. -/
theorem sender_wire_payload (env : SenderEnv) (bo : ByteOrder) (fuel : Nat)
    (os : List SendOutcome) (total c : Nat) (hc : 0 < c)
    (hs : (sender_run_socket env bo fuel os total c).status = .returned 0) :
    (sender_run_socket env bo fuel os total c).wire.drop 12
        = ((sender_run_socket env bo fuel os total c).chunks.map pattern_bytes).flatten ∧
      ((sender_run_socket env bo fuel os total c).chunks.map pattern_bytes).flatten.length
        = total := by
  obtain ⟨⟨rest, h1, h2⟩, -⟩ := sender_run_socket_spec env bo fuel os total c hc
  obtain ⟨hrest, hwire⟩ := h2 hs
  subst hrest
  rw [List.append_nil] at h1
  constructor
  · have h12 : (encode bo 8 (total % U64) ++ encode bo 4 (c % U32)).length = 12 := by
      simp [encode_length]
    conv_lhs => rw [hwire]
    rw [List.drop_append_of_le_length (by omega), List.drop_eq_nil_of_le (by omega)]
    simp
  · rw [h1, payload_length, chunk_sizes_sum]

/-- C3, chunking-invariance of the checksum.  For every way of cutting a byte
stream into consecutive chunks, the receiver's accumulated checksum (the sum
of `consume_buffer` over the chunks in `uint64_t` arithmetic) equals
`consume_buffer` of the whole stream, which is the sum modulo `2 ^ 64` of the
unsigned values of all its bytes.  In particular, when the sender's
`run_socket` has sent all chunks of its pattern with its chunk size and the
receiver's payload loop reads that payload with any chunk size `> 0` of its
own and ends normally, the receiver's checksum is the sum modulo `2 ^ 64` of
all bytes `fill_pattern` generated, and equals the checksum accumulated over
the sender's own chunks.  Such pairs of runs exist for all sizes. -/
theorem checksum_chunking_invariance :
    (∀ chunks : List (List Nat),
      checksum_of_chunks chunks
          = consume_buffer (buffer_of chunks.flatten) chunks.flatten.length ∧
        checksum_of_chunks chunks = byte_sum chunks.flatten % U64) ∧
      (∀ (env : SenderEnv) (bo : ByteOrder) (fuel_s : Nat) (os : List SendOutcome)
        (total_bytes sender_chunk receiver_chunk fuel_r : Nat) (es : List RecvEvent)
        (buffer : Buffer),
        0 < sender_chunk → 0 < receiver_chunk →
        (sender_run_socket env bo fuel_s os total_bytes sender_chunk).status = .returned 0 →
        (receiver_socket_loop total_bytes receiver_chunk fuel_r es
          ((sender_run_socket env bo fuel_s os total_bytes sender_chunk).wire.drop 12)
          buffer total_bytes 0 []).status = .returned 0 →
        (receiver_socket_loop total_bytes receiver_chunk fuel_r es
          ((sender_run_socket env bo fuel_s os total_bytes sender_chunk).wire.drop 12)
          buffer total_bytes 0 []).checksum
            = byte_sum
              (((sender_run_socket env bo fuel_s os total_bytes sender_chunk).chunks.map
                pattern_bytes).flatten) % U64 ∧
        (receiver_socket_loop total_bytes receiver_chunk fuel_r es
          ((sender_run_socket env bo fuel_s os total_bytes sender_chunk).wire.drop 12)
          buffer total_bytes 0 []).checksum
            = checksum_of_chunks
              ((sender_run_socket env bo fuel_s os total_bytes sender_chunk).chunks.map
                pattern_bytes)) ∧
      (∀ (bo : ByteOrder) (total_bytes sender_chunk receiver_chunk : Nat) (buffer : Buffer),
        0 < sender_chunk → 0 < receiver_chunk →
        (sender_run_socket sender_env_ok bo total_bytes
          (List.replicate (total_bytes + 2) (.took (sender_chunk + 8))) total_bytes
          sender_chunk).status = .returned 0 ∧
        (receiver_socket_loop total_bytes receiver_chunk total_bytes
          (List.replicate total_bytes (.ready receiver_chunk))
          ((sender_run_socket sender_env_ok bo total_bytes
            (List.replicate (total_bytes + 2) (.took (sender_chunk + 8))) total_bytes
            sender_chunk).wire.drop 12) buffer total_bytes 0 []).status = .returned 0) := by
  have hA : ∀ chunks : List (List Nat), checksum_of_chunks chunks
      = byte_sum chunks.flatten % U64 := by
    intro chunks
    unfold checksum_of_chunks
    rw [checksum_fold_eq chunks 0 (by unfold U64; positivity)]
    simp
  refine ⟨fun chunks => ⟨?_, hA chunks⟩, ?_, ?_⟩
  · rw [hA, consume_buffer_eq, bytes_at_buffer_of]
  · intro env bo fuel_s os total cs cr fuel_r es buffer hcs hcr hs hr
    obtain ⟨hdrop, hlen⟩ := sender_wire_payload env bo fuel_s os total cs hcs hs
    rw [hdrop] at hr ⊢
    generalize ((sender_run_socket env bo fuel_s os total cs).chunks.map
      pattern_bytes) = chunks at hlen hr ⊢
    obtain ⟨new, h3, -, -, -, h5⟩ :=
      receiver_socket_loop_spec total cr hcr fuel_r es chunks.flatten buffer total 0 []
    obtain ⟨-, -, -, -, h9⟩ := h5 hr
    have hlt := receiver_socket_loop_checksum_lt total cr fuel_r es chunks.flatten buffer
      total 0 [] (by unfold U64; positivity)
    rw [Nat.mod_eq_of_lt hlt, ← hlen, List.take_length, Nat.zero_add] at h9
    rw [hlen] at h9
    exact ⟨h9, by rw [hA, h9]⟩
  · intro bo total cs cr buffer hcs hcr
    have hs := sender_run_socket_completes bo total cs hcs
    obtain ⟨hdrop, hlen⟩ := sender_wire_payload sender_env_ok bo total _ total cs hcs hs
    refine ⟨hs, ?_⟩
    exact receiver_socket_loop_completes total cr cr hcr (Nat.le_refl _) total total _ buffer
      total 0 [] (Nat.le_refl _) (Nat.le_refl _) (by rw [hdrop, hlen])

/-- Witness for C3: the sender cuts 10 bytes into chunks of 4, the receiver
reads them in chunks of 3. -/
theorem checksum_chunking_invariance_witness :
    0 < 4 ∧ 0 < 3 ∧
      (receiver_socket_loop 10 3 10 (List.replicate 4 (.ready 3))
        ((sender_run_socket sender_env_ok .little 10 (List.replicate 5 (.took 8)) 10 4).wire.drop
          12) (fun _ => 0) 10 0 []).checksum
        = checksum_of_chunks
          ((sender_run_socket sender_env_ok .little 10 (List.replicate 5 (.took 8)) 10 4).chunks.map
            pattern_bytes) :=
  ⟨by decide, by decide,
    (checksum_chunking_invariance.2.1 sender_env_ok .little 10 (List.replicate 5 (.took 8)) 10 4 3 10
      (List.replicate 4 (.ready 3)) (fun _ => 0) (by decide) (by decide) (by decide)
      (by decide)).2⟩

theorem receiver_socket_loop_header (total c fuel : Nat) (es : List RecvEvent)
    (stream : List Nat) (buffer : Buffer) (remaining checksum : Nat)
    (calls : List (Nat × Option Int)) :
    (receiver_socket_loop total c fuel es stream buffer remaining checksum calls).total_bytes
        = total ∧
      (receiver_socket_loop total c fuel es stream buffer remaining checksum calls).chunk_size
        = c := by
  induction fuel generalizing es stream buffer remaining checksum calls with
  | zero =>
    unfold receiver_socket_loop
    split <;> exact ⟨rfl, rfl⟩
  | succ fuel ih =>
    unfold receiver_socket_loop
    split
    · exact ⟨rfl, rfl⟩
    · simp only
      split
      · exact ⟨rfl, rfl⟩
      · split
        · exact ⟨rfl, rfl⟩
        · exact ih _ _ _ _ _ _

theorem receiver_run_socket_ok (env : ReceiverEnv) (bo : ByteOrder) (fuel : Nat)
    (es : List RecvEvent) (stream : List Nat)
    (h : (receiver_run_socket env bo fuel es stream).status = .returned 0) :
    ∃ t c st es1, receiver_read_header bo es stream = .header t c st es1 ∧
      receiver_run_socket env bo fuel es stream
        = receiver_socket_loop t c fuel es1 st env.heap (t % U64) 0 [] := by
  unfold receiver_run_socket at h ⊢
  split at h
  · simp at h
  split at h
  · simp at h
  split at h
  · simp at h
  split at h
  · simp at h
  rename_i h1 h2 h3 h4
  simp only [h1, h2, h3, h4, if_false]
  cases hh : receiver_read_header bo es stream with
  | blocked => simp [hh] at h
  | failed => simp [hh] at h
  | header t c st es1 =>
    simp only [hh] at h ⊢
    split at h
    · simp at h
    · rename_i h5
      exact ⟨t, c, st, es1, rfl, by simp [h5]⟩

theorem header_decoded (env : SenderEnv) (bo : ByteOrder) (fuel : Nat) (os : List SendOutcome)
    (total chunk : Nat) (es : List RecvEvent) (t c : Nat) (st : List Nat) (es1 : List RecvEvent)
    (h : receiver_read_header bo es (sender_run_socket env bo fuel os total chunk).wire
      = .header t c st es1) :
    t = total % U64 ∧ c = chunk % U32 ∧
      st = (sender_run_socket env bo fuel os total chunk).wire.drop 12 := by
  obtain ⟨hlen, ht, hc, hst⟩ := receiver_read_header_spec bo es _ t c st es1 h
  rcases sender_run_socket_wire env bo fuel os total chunk with hw | ⟨tail, hw⟩
  · omega
  · rw [hw] at ht hc
    refine ⟨?_, ?_, hst⟩
    · rw [ht, List.append_assoc, List.take_left' (encode_length bo 8 _), decode_encode]
      exact Nat.mod_eq_of_lt (by
        have : (256 : Nat) ^ 8 = U64 := by unfold U64; norm_num
        rw [this]; exact Nat.mod_lt _ (by unfold U64; positivity))
    · rw [hc, List.append_assoc, List.drop_left' (encode_length bo 8 _),
        List.take_left' (encode_length bo 4 _), decode_encode]
      exact Nat.mod_eq_of_lt (by
        have : (256 : Nat) ^ 4 = U32 := by unfold U32; norm_num
        rw [this]; exact Nat.mod_lt _ (by unfold U32; positivity))

/-- C9 as stated fails.  Called with `total_bytes = 0` and
`chunk_size = 2 ^ 32 + 1024` (the command line `0 4194305`), the sender sends
the header and returns 0, and the receiver reading that wire returns 0 having
decoded the chunk size 1024.  Called with `total_bytes = 2` and
`chunk_size = 2 ^ 32 + 1`, the sender sends one chunk of 2 bytes and returns
0; the receiver decodes the chunk size 1, makes two reads of 1 byte and
returns 0. -/
theorem header_fidelity_counterexample :
    ((sender_run_socket sender_env_ok .little 0 [.took 8, .took 4] 0 (2 ^ 32 + 1024)).status
        = .returned 0 ∧
      (receiver_run_socket receiver_env_ok .little 0 [.ready 8, .ready 4]
        (sender_run_socket sender_env_ok .little 0 [.took 8, .took 4] 0
          (2 ^ 32 + 1024)).wire).status = .returned 0 ∧
      (receiver_run_socket receiver_env_ok .little 0 [.ready 8, .ready 4]
        (sender_run_socket sender_env_ok .little 0 [.took 8, .took 4] 0
          (2 ^ 32 + 1024)).wire).chunk_size = 1024 ∧
      (receiver_run_socket receiver_env_ok .little 0 [.ready 8, .ready 4]
        (sender_run_socket sender_env_ok .little 0 [.took 8, .took 4] 0
          (2 ^ 32 + 1024)).wire).chunk_size ≠ 2 ^ 32 + 1024) ∧
    ((sender_run_socket sender_env_ok .little 2 (List.replicate 3 (.took 8)) 2 (2 ^ 32 + 1)).status
        = .returned 0 ∧
      (receiver_run_socket receiver_env_ok .little 2 (List.replicate 4 (.ready 8))
        (sender_run_socket sender_env_ok .little 2 (List.replicate 3 (.took 8)) 2
          (2 ^ 32 + 1)).wire).status = .returned 0 ∧
      (receiver_run_socket receiver_env_ok .little 2 (List.replicate 4 (.ready 8))
        (sender_run_socket sender_env_ok .little 2 (List.replicate 3 (.took 8)) 2
          (2 ^ 32 + 1)).wire).chunk_size = 1 ∧
      (sender_run_socket sender_env_ok .little 2 (List.replicate 3 (.took 8)) 2
        (2 ^ 32 + 1)).chunks.map Prod.fst = [2] ∧
      (receiver_run_socket receiver_env_ok .little 2 (List.replicate 4 (.ready 8))
        (sender_run_socket sender_env_ok .little 2 (List.replicate 3 (.took 8)) 2
          (2 ^ 32 + 1)).wire).calls.map Prod.fst = [1, 1]) := by
  decide

/-- C9 amended.  Whatever the sender's `run_socket` is called with, a receiver that
reads the header from what the sender put on the wire decodes
`total_bytes mod 2 ^ 64` and `chunk_size mod 2 ^ 32`, in either byte order;
these are the sender's own values when `total_bytes < 2 ^ 64` and
`chunk_size < 2 ^ 32`.  In that case, with `chunk_size > 0`, when both
`run_socket` functions return 0 the receiver's `recv_size` sequence is the
sender's `send_size` sequence; and they do both return 0 over a connection
that takes and delivers `chunk_size + 8` bytes per call. -/
theorem header_fidelity (env : SenderEnv) (bo : ByteOrder) (fuel_s : Nat)
    (os : List SendOutcome) (total_bytes chunk_size : Nat) (es : List RecvEvent) :
    (∀ t c st es1,
      receiver_read_header bo es (sender_run_socket env bo fuel_s os total_bytes chunk_size).wire
          = .header t c st es1 →
        t = total_bytes % U64 ∧ c = chunk_size % U32 ∧
          (total_bytes < U64 → t = total_bytes) ∧ (chunk_size < U32 → c = chunk_size)) ∧
      (∀ (renv : ReceiverEnv) (fuel_r : Nat),
        total_bytes < U64 → 0 < chunk_size → chunk_size < U32 →
        (sender_run_socket env bo fuel_s os total_bytes chunk_size).status = .returned 0 →
        (receiver_run_socket renv bo fuel_r es
          (sender_run_socket env bo fuel_s os total_bytes chunk_size).wire).status = .returned 0 →
        (receiver_run_socket renv bo fuel_r es
          (sender_run_socket env bo fuel_s os total_bytes chunk_size).wire).total_bytes
            = total_bytes ∧
        (receiver_run_socket renv bo fuel_r es
          (sender_run_socket env bo fuel_s os total_bytes chunk_size).wire).chunk_size
            = chunk_size ∧
        (receiver_run_socket renv bo fuel_r es
          (sender_run_socket env bo fuel_s os total_bytes chunk_size).wire).calls.map Prod.fst
            = (sender_run_socket env bo fuel_s os total_bytes chunk_size).chunks.map Prod.fst) ∧
      (total_bytes < U64 → 0 < chunk_size → chunk_size < U32 →
        (sender_run_socket sender_env_ok bo total_bytes
            (List.replicate (total_bytes + 2) (.took (chunk_size + 8))) total_bytes
            chunk_size).status = .returned 0 ∧
          (receiver_run_socket receiver_env_ok bo total_bytes
            (List.replicate (total_bytes + 2) (.ready (chunk_size + 8)))
            (sender_run_socket sender_env_ok bo total_bytes
              (List.replicate (total_bytes + 2) (.took (chunk_size + 8))) total_bytes
              chunk_size).wire).status = .returned 0) := by
  refine ⟨?_, ?_, fun ht hc0 hc =>
    socket_transfer_completes bo total_bytes chunk_size hc0 ht hc⟩
  · intro t c st es1 h
    obtain ⟨h1, h2, -⟩ := header_decoded env bo fuel_s os total_bytes chunk_size es t c st es1 h
    exact ⟨h1, h2, fun hb => by rw [h1, Nat.mod_eq_of_lt hb],
      fun hb => by rw [h2, Nat.mod_eq_of_lt hb]⟩
  · intro renv fuel_r ht hc0 hc hs hr
    obtain ⟨t, c, st, es1, hh, hrun⟩ := receiver_run_socket_ok renv bo fuel_r es _ hr
    obtain ⟨h1, h2, -⟩ := header_decoded env bo fuel_s os total_bytes chunk_size es t c st es1 hh
    rw [Nat.mod_eq_of_lt ht] at h1
    rw [Nat.mod_eq_of_lt hc] at h2
    subst h1 h2
    rw [hrun] at hr ⊢
    obtain ⟨e1, e2⟩ := receiver_socket_loop_header t c fuel_r es1 st renv.heap (t % U64) 0 []
    refine ⟨e1, e2, ?_⟩
    obtain ⟨new, h3, -, -, -, h5⟩ :=
      receiver_socket_loop_spec t c hc0 fuel_r es1 st renv.heap (t % U64) 0 []
    obtain ⟨-, h6, -⟩ := h5 hr
    obtain ⟨⟨rest, h7, h8⟩, -⟩ := sender_run_socket_spec env bo fuel_s os t c hc0
    obtain ⟨hrest, -⟩ := h8 hs
    subst hrest
    rw [List.append_nil] at h7
    rw [h3, List.nil_append, h6, h7, with_seeds_map_fst, Nat.mod_eq_of_lt ht]

/-- Witness for C9 amended: 10 bytes in chunks of 4 on a big-endian host. -/
theorem header_fidelity_witness :
    (10 < U64 ∧ 0 < 4 ∧ 4 < U32) ∧
      (receiver_run_socket receiver_env_ok .big 10 (List.replicate 5 (.ready 8))
        (sender_run_socket sender_env_ok .big 10 (List.replicate 5 (.took 8)) 10 4).wire).chunk_size
        = 4 :=
  ⟨by decide,
    ((header_fidelity sender_env_ok .big 10 (List.replicate 5 (.took 8)) 10 4
      (List.replicate 5 (.ready 8))).2.1 receiver_env_ok 10 (by decide) (by decide) (by decide)
      (by decide) (by decide)).2.1⟩

/-- C10, receive all or fail.  The `recv` calls are a sequence of outcomes: `n`
bytes, `EINTR`, or another error, every read returning at most the bytes still
asked for and at most what the peer sent (`Fits`).  Then for every requested
size: a request of size 0 returns 0 without consuming any `recv` outcome;
`recv_all` returns 0 exactly when some leading part of the outcomes holds only
reads of at least one byte and `EINTR`s and its reads sum to exactly the
requested size; it returns -1 exactly when such a leading part sums to less
than the requested size and is followed by a zero-byte read or an error other
than `EINTR`; it returns nothing else; and an `EINTR` outcome is skipped with
`ptr` and `remaining` unchanged. -/
theorem recv_all_or_fail (es : List RecvEvent) (stream : List Nat) (data : Buffer) (size : Nat)
    (hfit : Fits es size stream.length) :
    (size = 0 → recv_all es stream data size = some (0, data, stream, es)) ∧
      (recv_all_ret es stream data size = some 0 ↔
        ∃ pre post, es = pre ++ post ∧ (∀ e ∈ pre, clean e) ∧ event_bytes pre = size) ∧
      (recv_all_ret es stream data size = some (-1) ↔
        ∃ pre bad post, es = pre ++ bad :: post ∧ (∀ e ∈ pre, clean e) ∧
          event_bytes pre < size ∧ (bad = .ready 0 ∨ bad = .err)) ∧
      (∀ r, recv_all_ret es stream data size = some r → r = 0 ∨ r = -1) ∧
      (∀ (es2 : List RecvEvent) (stream2 : List Nat) (data2 : Buffer) (ptr remaining : Nat),
        remaining ≠ 0 →
        recv_all_loop (.eintr :: es2) stream2 data2 ptr remaining
          = recv_all_loop es2 stream2 data2 ptr remaining) := by
  refine ⟨?_, ?_, ?_, ?_, ?_⟩
  · rintro rfl
    exact recv_all_loop_zero es stream data 0
  · constructor
    · intro h
      unfold recv_all_ret recv_all at h
      cases hr : recv_all_loop es stream data 0 size with
      | none => simp [hr] at h
      | some res =>
        obtain ⟨ret, d, st, e⟩ := res
        simp [hr] at h
        subst h
        obtain ⟨pre, h1, h2, h3⟩ :=
          (recv_all_loop_trace es stream data 0 size 0 d st e hfit hr).1 rfl
        exact ⟨pre, e, h1, h2, h3⟩
    · rintro ⟨pre, post, rfl, h2, h3⟩
      obtain ⟨d, st, e, he⟩ := recv_all_loop_succeeds pre post stream data 0 size h2 h3 hfit
      simp [recv_all_ret, recv_all, he]
  · constructor
    · intro h
      unfold recv_all_ret recv_all at h
      cases hr : recv_all_loop es stream data 0 size with
      | none => simp [hr] at h
      | some res =>
        obtain ⟨ret, d, st, e⟩ := res
        simp [hr] at h
        subst h
        obtain ⟨pre, bad, h1, h2, h3, h4⟩ :=
          (recv_all_loop_trace es stream data 0 size (-1) d st e hfit hr).2 rfl
        exact ⟨pre, bad, e, h1, h2, h3, h4⟩
    · rintro ⟨pre, bad, post, rfl, h2, h3, h4⟩
      obtain ⟨d, st, e, he⟩ :=
        recv_all_loop_fails pre post bad stream data 0 size h2 h3 h4 hfit
      simp [recv_all_ret, recv_all, he]
  · intro r h
    unfold recv_all_ret at h
    cases hr : recv_all es stream data size with
    | none => simp [hr] at h
    | some res =>
      obtain ⟨ret, d, st, e⟩ := res
      simp [hr] at h
      subst h
      exact (recv_all_spec es stream data size ret d st e hr).1
  · intro es2 stream2 data2 ptr remaining h
    exact recv_all_loop_eintr es2 stream2 data2 ptr remaining h

/-- Witness for C10: reads of 2 and 1 bytes with two `EINTR`s in between
complete a request of 3 bytes. -/
theorem recv_all_or_fail_witness :
    Fits [.eintr, .ready 2, .eintr, .ready 1, .err] 3 [7, 8, 9].length ∧
      recv_all_ret [.eintr, .ready 2, .eintr, .ready 1, .err] [7, 8, 9] (fun _ => 0) 3 = some 0 :=
  ⟨by simp [Fits],
    ((recv_all_or_fail [.eintr, .ready 2, .eintr, .ready 1, .err] [7, 8, 9] (fun _ => 0) 3
      (by simp [Fits])).2.1).mpr
      ⟨[.eintr, .ready 2, .eintr, .ready 1], [.err], rfl, by simp [clean], by simp [event_bytes]⟩⟩

/-- C4 as stated fails.  With `total_bytes = 2 ^ 20` and `chunk_size = 0` (the
command line `1 0`) the sender's `run_shm` passes its check and creates the
region, and its first two statements take the `can_write` semaphore; the
sender's `run_socket` sends the 12 header bytes, iterates its chunk loop with
`send_size = 0` as long as its fuel lasts, and does not return 1. -/
theorem zero_chunk_counterexample :
    sender_shm_setup shm_env_ok (2 ^ 20) 0 = .ok (fresh_region (2 ^ 20) 0) ∧
      (run_schedule [.sender, .sender]
        (shm_start (fresh_region (2 ^ 20) 0) (2 ^ 20) 0)).sender.pc = .fill ∧
      (run_schedule [.sender, .sender]
        (shm_start (fresh_region (2 ^ 20) 0) (2 ^ 20) 0)).region.can_write = 0 ∧
      (sender_run_socket sender_env_ok .little 3 [.took 8, .took 4] (2 ^ 20) 0).wire
        = [0, 0, 16, 0, 0, 0, 0, 0, 0, 0, 0, 0] ∧
      (sender_run_socket sender_env_ok .little 3 [.took 8, .took 4] (2 ^ 20) 0).chunks
        = [(0, 0), (0, 1), (0, 2)] ∧
      (sender_run_socket sender_env_ok .little 3 [.took 8, .took 4] (2 ^ 20) 0).status
        ≠ .returned 1 :=
  ⟨rfl, by decide, by decide, by decide, by decide, by decide⟩

theorem send_all_zero (os : List SendOutcome) (wire : List Nat) (data : Buffer) :
    send_all os wire data 0 = some (0, wire, os) := by
  cases os <;> simp [send_all, send_all_loop]

/-- With `chunk_size = 0` and bytes left to send, every iteration of the
sender's socket loop has `send_size = 0`: the loop sends nothing and never
ends, whatever the fuel. -/
theorem sender_socket_loop_zero_chunk (fuel : Nat) (os : List SendOutcome) (wire : List Nat)
    (buffer : Buffer) (remaining seed : Nat) (chunks : List (Nat × Nat)) (h : 0 < remaining) :
    (sender_socket_loop 0 fuel os wire buffer remaining seed chunks).status = .out_of_fuel ∧
      (sender_socket_loop 0 fuel os wire buffer remaining seed chunks).wire = wire := by
  induction fuel generalizing buffer seed chunks with
  | zero =>
    have h0 : remaining ≠ 0 := by omega
    simp [sender_socket_loop, h0]
  | succ fuel ih =>
    have h0 : remaining ≠ 0 := by omega
    simp only [sender_socket_loop, h0, if_false, Nat.not_lt_zero, send_all_zero, ne_eq,
      not_true_eq_false, Nat.sub_zero]
    exact ih _ _ _

theorem zero_chunk_takes_semaphore (total : Nat) :
    (run_schedule [.sender, .sender] (shm_start (fresh_region total 0) total 0)).region.can_write
      = 0 := by
  by_cases h : total = 0
  · subst h
    decide
  · have hp : 0 < total := by omega
    simp [run_schedule, step, sender_step, shm_start, fresh_region, hp]

/-- C4 amended.  The sender does not reject `chunk_size = 0`.  `run_shm`, whose only
chunk-size check is `chunk_size > SHM_BUFFER_SIZE`, creates and initialises the
region whenever its system calls succeed, and its first two statements then
take the `can_write` semaphore.  `run_socket` has no chunk-size check:
when `socket`, `inet_pton` and `connect` succeed and the first two `send` calls
take the 8 and the 4 header bytes, the wire starts with the header
`(total_bytes, 0)`.  For `total_bytes = 0` both then end without a chunk
iteration: `run_socket` returns 0 with no chunk, and the shared-memory sender
reaches its end having produced no chunk. -/
theorem zero_chunk_not_rejected (total_bytes : Nat) :
    (∀ env : ShmEnv, env.shm_open_ok = true → env.ftruncate_ok = true → env.mmap_ok = true →
        env.sem_init_ok = true →
        sender_shm_setup env total_bytes 0 = .ok (fresh_region total_bytes 0)) ∧
      (∀ (env : SenderEnv) (bo : ByteOrder) (fuel a b : Nat) (rest : List SendOutcome),
        env.socket_ok = true → env.host_ok = true → env.connect_ok = true → 8 ≤ a → 4 ≤ b →
        (∃ tail, (sender_run_socket env bo fuel (.took a :: .took b :: rest) total_bytes 0).wire
          = encode bo 8 (total_bytes % U64) ++ encode bo 4 0 ++ tail) ∧
        (total_bytes = 0 → env.malloc_ok = true →
          (sender_run_socket env bo fuel (.took a :: .took b :: rest) total_bytes 0).status
              = .returned 0 ∧
            (sender_run_socket env bo fuel (.took a :: .took b :: rest) total_bytes 0).chunks
              = [])) ∧
      (Reachable total_bytes 0
          (run_schedule [.sender, .sender] (shm_start (fresh_region total_bytes 0) total_bytes 0)) ∧
        (run_schedule [.sender, .sender]
          (shm_start (fresh_region total_bytes 0) total_bytes 0)).region.can_write = 0) ∧
      (total_bytes = 0 →
        Reachable 0 0 (run_schedule handoff_final (shm_start (fresh_region 0 0) 0 0)) ∧
          (run_schedule handoff_final (shm_start (fresh_region 0 0) 0 0)).sender.pc = .exited ∧
          (run_schedule handoff_final (shm_start (fresh_region 0 0) 0 0)).sender.produced = []) := by
  refine ⟨?_, ?_, ?_, ?_⟩
  · intro env h1 h2 h3 h4
    simp [sender_shm_setup, h1, h2, h3, h4, SHM_BUFFER_SIZE, fresh_region]
  · intro env bo fuel a b rest h1 h2 h3 ha hb
    have e : sender_run_socket env bo fuel (.took a :: .took b :: rest) total_bytes 0
        = if !env.malloc_ok then
            ⟨.returned 1, encode bo 8 (total_bytes % U64) ++ encode bo 4 0, []⟩
          else sender_socket_loop 0 fuel rest
            (encode bo 8 (total_bytes % U64) ++ encode bo 4 0) env.heap total_bytes 0 [] := by
      unfold sender_run_socket
      simp only [h1, h2, h3, Bool.not_true, Bool.false_eq_true, if_false]
      rw [send_all_took a _ _ _ 8 (by omega) ha]
      simp only [ne_eq, not_true_eq_false, if_false]
      rw [send_all_took b _ _ _ 4 (by omega) hb]
      simp only [ne_eq, not_true_eq_false, if_false, List.nil_append, header_bytes_at]
      rfl
    rw [e]
    constructor
    · by_cases hm : env.malloc_ok = true
      · simp only [hm, Bool.not_true, Bool.false_eq_true, if_false]
        exact sender_socket_loop_wire 0 fuel rest _ env.heap total_bytes 0 []
      · simp only [hm, Bool.not_false, if_true]
        exact ⟨[], by simp⟩
    · rintro rfl hm
      simp only [hm, Bool.not_true, Bool.false_eq_true, if_false]
      cases fuel <;> simp [sender_socket_loop]
  · exact ⟨reachable_run_schedule total_bytes 0 _ _
      (Reachable.start shm_env_ok (fresh_region total_bytes 0) rfl),
      zero_chunk_takes_semaphore total_bytes⟩
  · intro _
    refine ⟨reachable_run_schedule 0 0 handoff_final _
      (Reachable.start shm_env_ok (fresh_region 0 0) rfl), by decide, by decide⟩

/-- Witness for C4 amended: an empty transfer with `chunk_size = 0` over the
socket returns 0. -/
theorem zero_chunk_not_rejected_witness :
    (8 ≤ 8 ∧ 4 ≤ 4) ∧
      (sender_run_socket sender_env_ok .little 0 [.took 8, .took 4] 0 0).status = .returned 0 :=
  ⟨by decide,
    (((zero_chunk_not_rejected 0).2.1 sender_env_ok .little 0 8 4 [] rfl rfl rfl (by decide)
      (by decide)).2 rfl rfl).1⟩

theorem history_step (c : Nat) (p : Proc) (s t : System) (h : Inv c s)
    (hb : history_bounded c s) (hs : step p s = some t) : history_bounded c t := by
  obtain ⟨⟨cw, cr, csz, tb, dn, buf⟩, ⟨spc, sc, rem, seed, ss, P⟩, ⟨rpc, ck, sz, D, ds⟩⟩ := s
  have h5 := h.send_le
  have h7 := h.size_le
  obtain ⟨b1, b2⟩ := hb
  simp only at h5 h7 b1 b2
  cases p
  · simp only [step] at hs
    cases spc <;> simp only [sender_step] at hs
    all_goals (try split at hs)
    all_goals (first | (injection hs with hs; subst hs) | cases hs)
    all_goals (try exact ⟨b1, b2⟩)
    refine ⟨?_, b2⟩
    intro x hx
    simp only [List.mem_append, List.mem_singleton] at hx
    rcases hx with hx | rfl
    · exact b1 x hx
    · exact h5
  · simp only [step] at hs
    cases rpc <;> simp only [receiver_step] at hs
    all_goals (try split at hs)
    all_goals (first | (injection hs with hs; subst hs) | cases hs)
    all_goals (try exact ⟨b1, b2⟩)
    refine ⟨b1, ?_⟩
    intro x hx
    simp only [List.mem_append, List.mem_singleton] at hx
    rcases hx with hx | rfl
    · exact b2 x hx
    · exact h7

theorem history_reachable (total c : Nat) (s : System) (h : Reachable total c s) :
    history_bounded c s := by
  induction h with
  | start env region h => simp [history_bounded, shm_start]
  | step p s t hr hs ih => exact history_step c p s t (inv_reachable total c s hr) ih hs

/-- What holds once the receiver has read `done` as true. -/
theorem receiver_done_facts (total c : Nat) (hc : 0 < c) (s : System)
    (h : Reachable total c s)
    (hexit : s.receiver.pc = .post_done ∨ s.receiver.pc = .exited) :
    s.receiver.done_seen = 1 ∧ s.sender.pc = .exited ∧
      s.sender.produced = with_seeds (chunk_sizes c total) 0 ∧
      s.receiver.drained = chunk_sizes c total ∧
      s.receiver.checksum = chunks_checksum s.sender.produced := by
  have hi := inv_reachable total c s h
  have hd := data_reachable total c s h
  have hse := hi.recv_exit hexit
  have hseen := hi.seen
  rw [if_pos hexit] at hseen
  have hna : ¬ ahead s := by
    unfold ahead
    rcases hexit with hx | hx <;> simp [hse, hx]
  obtain ⟨h1, h2⟩ := hd.synced hna
  have hrem := hd.fin (Or.inr (Or.inr (Or.inr hse)))
  have hp : pending s.sender = 0 := by
    unfold pending
    simp [hse, hrem]
  have hsz := hd.sizes hc
  rw [hp, chunk_sizes_zero, List.append_nil] at hsz
  refine ⟨hseen, hse, ?_, by rw [h1, hsz], h2⟩
  rw [← hsz, hd.seeds]

/-- C5, mutual exclusion of the single slot.  In every state the interleaved
sender and receiver can reach from the initialised region (`can_write = 1`,
`can_read = 0`): `can_write + can_read` plus one for the sender when it is
between its `sem_wait` and `sem_post`, plus one for the receiver when it is
between its `sem_wait` and `sem_post`, is 1.  Hence the two are never both
inside; while the receiver is inside, no statement of the sender changes the
region; while the sender is inside, the receiver cannot move; and when the
receiver reads `chunk_size` and the buffer, both were written by one and the
same sender iteration, the latest one. -/
theorem slot_mutual_exclusion (total_bytes chunk_size : Nat) (s : System)
    (h : Reachable total_bytes chunk_size s) :
    s.region.can_write + s.region.can_read + sender_holds s.sender
        + receiver_holds s.receiver = 1 ∧
      ¬ (sender_holds s.sender = 1 ∧ receiver_holds s.receiver = 1) ∧
      (receiver_holds s.receiver = 1 → ∀ t, sender_step s = some t → t.region = s.region) ∧
      (sender_holds s.sender = 1 → receiver_step s = none) ∧
      (s.receiver.pc = .read_size ∨ s.receiver.pc = .consume →
        ∃ q size seed, s.sender.produced = q ++ [(size, seed)] ∧
          s.region.chunk_size = size ∧
          (∀ i, i < size → s.region.buffer i = pattern_byte seed i) ∧
          (s.receiver.pc = .consume → s.receiver.size = size)) := by
  have hi := inv_reachable total_bytes chunk_size s h
  have hd := data_reachable total_bytes chunk_size s h
  have htok := hi.token
  refine ⟨htok, by omega, ?_, ?_, ?_⟩
  · intro hr t ht
    obtain ⟨⟨cw, cr, csz, tb, dn, buf⟩, ⟨spc, sc, rem, seed, ss, P⟩, y⟩ := s
    simp only at htok hr
    have hcw : cw = 0 := by omega
    have hsh : sender_holds ⟨spc, sc, rem, seed, ss, P⟩ = 0 := by omega
    cases spc <;> simp [sender_holds] at hsh <;> simp only [sender_step] at ht
    all_goals (try split at ht)
    all_goals (first | omega | (injection ht with ht; subst ht; rfl) | cases ht)
  · intro hsn
    obtain ⟨⟨cw, cr, csz, tb, dn, buf⟩, x, ⟨rpc, ck, sz, D, ds⟩⟩ := s
    simp only at htok hsn
    have hcr : cr = 0 := by omega
    have hrh : receiver_holds ⟨rpc, ck, sz, D, ds⟩ = 0 := by omega
    cases rpc <;> simp [receiver_holds] at hrh <;> simp [receiver_step, hcr]
  · intro hpc
    have ha : ahead s := by
      unfold ahead
      rcases hpc with hx | hx <;> simp [hx]
    obtain ⟨q, size, seed, h1, -, -, h4, h5, h6⟩ := hd.full ha
    refine ⟨q, size, seed, h1, h5 ?_, h4, h6⟩
    intro hsc
    have : sender_holds s.sender = 1 := by simp [sender_holds, hsc]
    have : receiver_holds s.receiver = 1 := by
      rcases hpc with hx | hx <;> simp [receiver_holds, hx]
    omega

/-- Witness for C5: the state after the sender has handed over the first of
two chunks and the receiver has read its size. -/
theorem slot_mutual_exclusion_witness :
    Reachable 3 2
        (run_schedule (List.replicate 7 .sender ++ List.replicate 3 .receiver)
          (shm_start (fresh_region 3 2) 3 2)) ∧
      (run_schedule (List.replicate 7 .sender ++ List.replicate 3 .receiver)
          (shm_start (fresh_region 3 2) 3 2)).receiver.pc = .consume ∧
      receiver_step (run_schedule (List.replicate 7 .sender ++ List.replicate 3 .receiver)
          (shm_start (fresh_region 3 2) 3 2)) ≠ none ∧
      ∀ t, sender_step (run_schedule (List.replicate 7 .sender ++ List.replicate 3 .receiver)
          (shm_start (fresh_region 3 2) 3 2)) = some t →
        t.region = (run_schedule (List.replicate 7 .sender ++ List.replicate 3 .receiver)
          (shm_start (fresh_region 3 2) 3 2)).region :=
  ⟨reachable_run_schedule 3 2 _ _ (Reachable.start shm_env_ok (fresh_region 3 2) rfl),
    by decide, by simp [run_schedule, step, sender_step, receiver_step, shm_start, fresh_region],
    (slot_mutual_exclusion 3 2 _
      (reachable_run_schedule 3 2 _ _ (Reachable.start shm_env_ok (fresh_region 3 2) rfl))).2.2.1
      (by decide)⟩

/-- C6, termination visibility.  For every `total_bytes` and every
`chunk_size > 0` accepted by the capacity check, in every reachable state in
which the receiver has read `done` as true (it is about to leave or has left
its drain loop): the sender has finished, the receiver has drained every chunk
the sender produced, in order; their number is
`ceil(total_bytes / chunk_size)`, their sizes sum to `total_bytes`, and the
receiver's checksum is the sum, in `uint64_t` arithmetic, of all pattern bytes
the sender wrote, which is their plain sum whenever `255 * total_bytes` is
below `2 ^ 64`.  States in which the receiver has left its loop are
reachable. -/
theorem termination_visibility (total_bytes chunk_size : Nat) (hc : 0 < chunk_size)
    (s : System) (h : Reachable total_bytes chunk_size s)
    (hexit : s.receiver.pc = .post_done ∨ s.receiver.pc = .exited) :
    chunk_size ≤ SHM_BUFFER_SIZE ∧ s.receiver.done_seen = 1 ∧ s.sender.pc = .exited ∧
      s.sender.produced = with_seeds (chunk_sizes chunk_size total_bytes) 0 ∧
      s.receiver.drained = s.sender.produced.map Prod.fst ∧
      s.receiver.drained.length = (total_bytes + chunk_size - 1) / chunk_size ∧
      s.receiver.drained.sum = total_bytes ∧
      s.receiver.checksum = byte_sum ((s.sender.produced.map pattern_bytes).flatten) % U64 ∧
      (255 * total_bytes < U64 →
        s.receiver.checksum = byte_sum ((s.sender.produced.map pattern_bytes).flatten)) ∧
      (∃ t, Reachable total_bytes chunk_size t ∧ t.receiver.pc = .exited) := by
  obtain ⟨h1, h2, h3, h4, h5⟩ := receiver_done_facts total_bytes chunk_size hc s h hexit
  have hcap := (inv_reachable total_bytes chunk_size s h).cap
  refine ⟨hcap, h1, h2, h3, ?_, ?_, ?_, h5, ?_, ?_⟩
  rotate_right
  · obtain ⟨t, g1, -, g3⟩ := complete_run_exists shm_env_ok total_bytes chunk_size
      (fresh_region total_bytes chunk_size) hc
      (by simp [sender_shm_setup, shm_env_ok, fresh_region, Nat.not_lt.mpr hcap])
    exact ⟨t, g1, g3⟩
  · rw [h4, h3, with_seeds_map_fst]
  · rw [h4, chunk_sizes_length _ _ hc]
  · rw [h4, chunk_sizes_sum]
  · intro hsmall
    have hlen : ((s.sender.produced.map pattern_bytes).flatten).length = total_bytes := by
      rw [h3, payload_length, chunk_sizes_sum]
    have hle := byte_sum_le ((s.sender.produced.map pattern_bytes).flatten)
    rw [hlen] at hle
    rw [h5]
    exact Nat.mod_eq_of_lt (by omega)

/-- Witness for C6: a complete run of 3 bytes in chunks of 2. -/
theorem termination_visibility_witness :
    (0 < 2 ∧
      Reachable 3 2 (run_schedule (round_robin 40) (shm_start (fresh_region 3 2) 3 2)) ∧
      (run_schedule (round_robin 40) (shm_start (fresh_region 3 2) 3 2)).receiver.pc = .exited) ∧
      (run_schedule (round_robin 40) (shm_start (fresh_region 3 2) 3 2)).receiver.drained.sum
        = 3 :=
  ⟨⟨by decide,
      reachable_run_schedule 3 2 _ _ (Reachable.start shm_env_ok (fresh_region 3 2) rfl),
      by decide⟩,
    (termination_visibility 3 2 (by decide) _
      (reachable_run_schedule 3 2 _ _ (Reachable.start shm_env_ok (fresh_region 3 2) rfl))
      (Or.inr (by decide))).2.2.2.2.2.2.1⟩

/-- C7, shared-memory capacity check.  When `chunk_size > SHM_BUFFER_SIZE` the
sender's `run_shm` returns 1 at its first statement, whatever the system calls
would do, so no region is created and no state of the handoff is reached.  For
every accepted `chunk_size`, in every reachable state the sender's `send_size`,
the `chunk_size` stored in the region and the `size` the receiver read are at
most `SHM_BUFFER_SIZE`, and so is every size ever passed to `fill_pattern` or to
`consume_buffer`: every buffer index used is below the capacity. -/
theorem shm_capacity_check (total_bytes chunk_size : Nat) :
    (SHM_BUFFER_SIZE < chunk_size →
        (∀ env : ShmEnv, sender_shm_setup env total_bytes chunk_size = .error 1) ∧
          ∀ s, ¬ Reachable total_bytes chunk_size s) ∧
      (∀ s, Reachable total_bytes chunk_size s →
        chunk_size ≤ SHM_BUFFER_SIZE ∧ s.sender.send_size ≤ SHM_BUFFER_SIZE ∧
          s.region.chunk_size ≤ SHM_BUFFER_SIZE ∧ s.receiver.size ≤ SHM_BUFFER_SIZE ∧
          (∀ x ∈ s.sender.produced, x.1 ≤ SHM_BUFFER_SIZE) ∧
          (∀ x ∈ s.receiver.drained, x ≤ SHM_BUFFER_SIZE)) := by
  constructor
  · intro hbig
    refine ⟨fun env => by simp [sender_shm_setup, hbig], fun s hs => ?_⟩
    have := (inv_reachable total_bytes chunk_size s hs).cap
    omega
  · intro s hs
    have hi := inv_reachable total_bytes chunk_size s hs
    obtain ⟨hb1, hb2⟩ := history_reachable total_bytes chunk_size s hs
    have hcap := hi.cap
    refine ⟨hcap, Nat.le_trans hi.send_le hcap, Nat.le_trans hi.slot_le hcap,
      Nat.le_trans hi.size_le hcap, fun x hx => Nat.le_trans (hb1 x hx) hcap,
      fun x hx => Nat.le_trans (hb2 x hx) hcap⟩

/-- Witness for C7. -/
theorem shm_capacity_check_witness :
    (SHM_BUFFER_SIZE < 2 ^ 20 + 1 ∧
        sender_shm_setup shm_env_ok 5 (2 ^ 20 + 1) = .error 1) ∧
      (Reachable 3 2 (run_schedule (round_robin 40) (shm_start (fresh_region 3 2) 3 2)) ∧
        (run_schedule (round_robin 40) (shm_start (fresh_region 3 2) 3 2)).receiver.size
          ≤ SHM_BUFFER_SIZE) :=
  ⟨⟨by decide, ((shm_capacity_check 5 (2 ^ 20 + 1)).1 (by decide)).1 shm_env_ok⟩,
    reachable_run_schedule 3 2 _ _ (Reachable.start shm_env_ok (fresh_region 3 2) rfl),
    ((shm_capacity_check 3 2).2 _
      (reachable_run_schedule 3 2 _ _
        (Reachable.start shm_env_ok (fresh_region 3 2) rfl))).2.2.2.1⟩

theorem chunk_sizes_million : chunk_sizes 65536 1000000 = List.replicate 15 65536 ++ [16960] := by
  decide

/-- C8 as stated fails.  For `total_bytes = 1,000,000` and `chunk_size = 65,536` a
complete run exists, and in it the sender produced and the receiver drained 15
chunks of 65,536 bytes followed by one chunk of 16,960 bytes, not 50,960. -/
theorem shm_scenario_b_counterexample :
    ∃ s, Reachable 1000000 65536 s ∧ s.receiver.pc = .exited ∧
      s.receiver.drained = List.replicate 15 65536 ++ [16960] ∧
      s.sender.produced.map Prod.fst = List.replicate 15 65536 ++ [16960] ∧
      s.sender.produced.map Prod.fst ≠ List.replicate 15 65536 ++ [50960] := by
  obtain ⟨s, h1, h2, h3⟩ := complete_run_exists shm_env_ok 1000000 65536
    (fresh_region 1000000 65536) (by decide) rfl
  obtain ⟨-, -, h4, h5, -⟩ := receiver_done_facts 1000000 65536 (by decide) s h1 (Or.inr h3)
  have h6 : s.sender.produced.map Prod.fst = List.replicate 15 65536 ++ [16960] := by
    rw [h4, with_seeds_map_fst, chunk_sizes_million]
  refine ⟨s, h1, h3, by rw [h5, chunk_sizes_million], h6, ?_⟩
  rw [h6]
  decide

/-- C8 amended.  For `total_bytes = 1,000,000` and `chunk_size = 65,536`, in every
reachable state the chunks the sender has produced are a leading part of 15
chunks of 65,536 bytes followed by one chunk of 16,960 bytes; the receiver
reads `done` as true at most once, has done so exactly when it is about to
leave or has left its loop, and has then drained exactly those 16 chunks; once
it has left the loop it takes no further step.  A run in which the receiver
leaves its loop exists. -/
theorem shm_scenario_b (s : System) (h : Reachable 1000000 65536 s) :
    (∃ rest, s.sender.produced.map Prod.fst ++ rest = List.replicate 15 65536 ++ [16960]) ∧
      s.receiver.done_seen ≤ 1 ∧
      (s.receiver.done_seen = 1 ↔ s.receiver.pc = .post_done ∨ s.receiver.pc = .exited) ∧
      (s.receiver.done_seen = 1 →
        s.receiver.drained = List.replicate 15 65536 ++ [16960] ∧
          s.receiver.drained.length = 16 ∧
          s.sender.produced.map Prod.fst = List.replicate 15 65536 ++ [16960]) ∧
      (s.receiver.pc = .exited → receiver_step s = none) ∧
      (∃ t, Reachable 1000000 65536 t ∧ t.receiver.pc = .exited ∧ t.receiver.done_seen = 1) := by
  have hi := inv_reachable 1000000 65536 s h
  have hd := data_reachable 1000000 65536 s h
  have hseen := hi.seen
  have hiff : s.receiver.done_seen = 1 ↔
      s.receiver.pc = .post_done ∨ s.receiver.pc = .exited := by
    rw [hseen]
    by_cases hx : s.receiver.pc = .post_done ∨ s.receiver.pc = .exited <;> simp [hx]
  refine ⟨⟨_, by rw [← chunk_sizes_million]; exact hd.sizes (by decide)⟩, ?_, hiff, ?_, ?_, ?_⟩
  · rw [hseen]; split <;> omega
  · intro h1
    obtain ⟨-, -, h4, h5, -⟩ :=
      receiver_done_facts 1000000 65536 (by decide) s h (hiff.mp h1)
    refine ⟨by rw [h5, chunk_sizes_million], by rw [h5, chunk_sizes_million]; rfl, ?_⟩
    rw [h4, with_seeds_map_fst, chunk_sizes_million]
  · intro hx
    simp [receiver_step, hx]
  · obtain ⟨t, h1, h2, h3⟩ := complete_run_exists shm_env_ok 1000000 65536
      (fresh_region 1000000 65536) (by decide) rfl
    obtain ⟨h4, -⟩ := receiver_done_facts 1000000 65536 (by decide) t h1 (Or.inr h3)
    exact ⟨t, h1, h3, h4⟩

set_option maxRecDepth 1000000 in
/-- Witness for C8 amended: the state after 160 round-robin turns, in which the
transfer is complete. -/
theorem shm_scenario_b_witness :
    (Reachable 1000000 65536
        (run_schedule (round_robin 160) (shm_start (fresh_region 1000000 65536) 1000000 65536)) ∧
      (run_schedule (round_robin 160)
        (shm_start (fresh_region 1000000 65536) 1000000 65536)).receiver.done_seen = 1) ∧
      (run_schedule (round_robin 160)
        (shm_start (fresh_region 1000000 65536) 1000000 65536)).receiver.drained.length = 16 :=
  ⟨⟨reachable_run_schedule 1000000 65536 _ _
      (Reachable.start shm_env_ok (fresh_region 1000000 65536) rfl), by decide⟩,
    ((shm_scenario_b _ (reachable_run_schedule 1000000 65536 _ _
      (Reachable.start shm_env_ok (fresh_region 1000000 65536) rfl))).2.2.2.1 (by decide)).2.1⟩

end Ipc
